import Mathlib

/-!
# Record reader: chunk scanning and message filtering

A shallow embedding of `cybertron/record/record_reader.cpp`
(`RecordReader::RecordReader`, `RecordReader::ReadMessage`,
`RecordReader::ReadNextChunk`) together with the properties proved about it.

Timestamps are `uint64_t` in the source; they are only ever compared, never
added or subtracted, so they are embedded as natural numbers.
-/

namespace Apollo.Cybertron.Record

/-! ## Data model -/

/-- File-level summary: the time span of the whole record. -/
structure Header where
  begin_time : Nat
  end_time : Nat
deriving DecidableEq, Repr

/-- Decoded body of a `SECTION_CHANNEL` section. -/
structure Channel where
  name : String
  message_type : String
  proto_desc : String
deriving DecidableEq, Repr

/-- Decoded body of a `SECTION_CHUNK_HEADER` section. -/
structure ChunkHeader where
  begin_time : Nat
  end_time : Nat
deriving DecidableEq, Repr

/-- One stored message of a chunk body (`chunk_.messages(i)`). -/
structure SingleMessage where
  channel_name : String
  content : String
  time : Nat
deriving DecidableEq, Repr

/-- The output record filled in by `ReadMessage` through its pointer argument. -/
structure RecordMessage where
  channel_name : String
  content : String
  time : Nat
deriving DecidableEq, Repr

/-- Modelled from the spec: the Section Source (`RecordFileReader`, whose code is
not part of the reviewed unit). One element of the section stream is the
envelope returned by `ReadSection(&section)` together with what decoding its
body gives: `none` stands for a body on which `ReadSection<T>` returns false.
A section whose type is none of the four known ones carries its type code. -/
inductive Section where
  | index (size : Nat)
  | channel (body : Option Channel)
  | chunkHeader (body : Option ChunkHeader)
  | chunkBody (body : Option (List SingleMessage))
  | other (type : Nat)
deriving DecidableEq, Repr

/-- Modelled from the spec: the Section Source state. `sections` is the whole
section stream of the file, `remaining` the part not yet read; `GetHeader`
returns `header`, `Reset` rewinds to the start of the section stream. -/
structure RecordFileReader where
  header : Header
  sections : List Section
  remaining : List Section
deriving DecidableEq, Repr

/-- Rewind the Section Source to the start of its section stream. -/
def RecordFileReader.Reset (f : RecordFileReader) : RecordFileReader :=
  { f with remaining := f.sections }

/-- Modelled from the spec: the two discovery hooks (`OnNewChannel`,
`OnNewMessage`, defined in the base class outside the reviewed unit) are
recorded as events, in invocation order. -/
inductive Event where
  | newChannel (name message_type proto_desc : String)
  | newMessage (channel_name : String)
deriving DecidableEq, Repr

/-- The reader's fields. `channels_` is a `std::set<std::string>` of which only
emptiness and membership are observed; `trace` records the hook invocations. -/
structure RecordReader where
  begin_time_ : Nat
  end_time_ : Nat
  channels_ : List String
  file_reader_ : RecordFileReader
  header_ : Header
  chunk_ : List SingleMessage
  index_ : Nat
  trace : List Event
deriving DecidableEq, Repr

/-! ## Operations -/

/-- Embedding of the constructor `RecordReader::RecordReader`. -/
def RecordReader.new (file : RecordFileReader) (begin_time end_time : Nat)
    (channels : List String) : RecordReader :=
  let header := file.header
  let file := file.Reset
  let begin_time_ := if begin_time < header.begin_time then header.begin_time else begin_time
  let end_time_ := if end_time > header.end_time then header.end_time else end_time
  { begin_time_ := begin_time_
    end_time_ := end_time_
    channels_ := channels
    file_reader_ := file
    header_ := header
    chunk_ := []
    index_ := 0
    trace := [] }

/-- The `while (file_reader_->ReadSection(&section))` loop of `ReadNextChunk`,
over the sections not yet read. `skip` is `skip_next_chunk_body`. Returns the
function's result and the reader state at that point. -/
def ReadNextChunk.loop (r : RecordReader) : List Section → Bool → List Event → Bool × RecordReader
  | [], _, tr =>
      (false, { r with file_reader_ := { r.file_reader_ with remaining := [] }, trace := tr })
  | Section.index _ :: rest, skip, tr => ReadNextChunk.loop r rest skip tr
  | Section.channel none :: rest, _, tr =>
      (false, { r with file_reader_ := { r.file_reader_ with remaining := rest }, trace := tr })
  | Section.channel (some c) :: rest, skip, tr =>
      ReadNextChunk.loop r rest skip (tr ++ [Event.newChannel c.name c.message_type c.proto_desc])
  | Section.chunkHeader none :: rest, _, tr =>
      (false, { r with file_reader_ := { r.file_reader_ with remaining := rest }, trace := tr })
  | Section.chunkHeader (some header) :: rest, skip, tr =>
      if r.begin_time_ > header.end_time then
        (false, { r with file_reader_ := { r.file_reader_ with remaining := rest }, trace := tr })
      else if r.end_time_ < header.begin_time then
        ReadNextChunk.loop r rest true tr
      else
        ReadNextChunk.loop r rest skip tr
  | Section.chunkBody body :: rest, skip, tr =>
      if skip then
        ReadNextChunk.loop r rest false tr
      else
        match body with
        | none =>
            (false, { r with file_reader_ := { r.file_reader_ with remaining := rest }, trace := tr })
        | some messages =>
            (true, { r with chunk_ := messages,
                            file_reader_ := { r.file_reader_ with remaining := rest },
                            trace := tr })
  | Section.other _ :: rest, _, tr =>
      (false, { r with file_reader_ := { r.file_reader_ with remaining := rest }, trace := tr })

/-- Embedding of `RecordReader::ReadNextChunk`. -/
def ReadNextChunk (r : RecordReader) : Bool × RecordReader :=
  ReadNextChunk.loop r r.file_reader_.remaining false r.trace

/-- How the `while (index_ < chunk_.messages_size())` loop of `ReadMessage` ends. -/
inductive LoopExit where
  | returnTrue (message : RecordMessage)
  | returnFalse
  | exhausted
deriving DecidableEq, Repr

/-- The `while (index_ < chunk_.messages_size())` loop of `ReadMessage`, over the
messages of `chunk_` from position `index` on. Returns how the loop ends and
the value of `index_` at that point. -/
def ReadMessage.loop (r : RecordReader) : List SingleMessage → Nat → LoopExit × Nat
  | [], index => (LoopExit.exhausted, index)
  | next_message :: rest, index =>
      let time := next_message.time
      if time > r.end_time_ then
        (LoopExit.returnFalse, index + 1)
      else if time < r.begin_time_ then
        ReadMessage.loop r rest (index + 1)
      else
        let channel_name := next_message.channel_name
        if r.channels_ ≠ [] ∧ channel_name ∉ r.channels_ then
          ReadMessage.loop r rest (index + 1)
        else
          (LoopExit.returnTrue
            { channel_name := channel_name, content := next_message.content, time := time },
           index + 1)

/-- The body of `ReadMessage` with the depth of the self-invocation at line 75
bounded by `fuel`; `ReadMessage` supplies more fuel than any run can use. -/
def ReadMessage.go : Nat → RecordReader → Option RecordMessage × RecordReader
  | 0, r => (none, r)
  | fuel + 1, r =>
      match ReadMessage.loop r (r.chunk_.drop r.index_) r.index_ with
      | (LoopExit.returnTrue message, index) =>
          (some message,
           { r with index_ := index,
                    trace := r.trace ++ [Event.newMessage message.channel_name] })
      | (LoopExit.returnFalse, index) => (none, { r with index_ := index })
      | (LoopExit.exhausted, index) =>
          match ReadNextChunk { r with index_ := index } with
          | (true, r1) => ReadMessage.go fuel { r1 with index_ := 0 }
          | (false, r1) => (none, r1)

/-- Embedding of `RecordReader::ReadMessage`: `some m` is a `true` return with
`*message = m`, `none` is a `false` return (end-of-stream). Every
self-invocation follows a `ReadNextChunk` that consumed at least one section,
so the number of unread sections plus one bounds the depth. This is the
function on an unbounded call stack; `ReadMessage.onStack` bounds the stack. -/
def ReadMessage (r : RecordReader) : Option RecordMessage × RecordReader :=
  ReadMessage.go (r.file_reader_.remaining.length + 1) r

/-- Results of `n` successive `ReadMessage` calls, and the reader afterwards. -/
def readCalls : Nat → RecordReader → List (Option RecordMessage) × RecordReader
  | 0, r => ([], r)
  | n + 1, r =>
      let first := ReadMessage r
      let later := readCalls n first.2
      (first.1 :: later.1, later.2)

/-- The messages yielded by the successful ones among `n` successive calls. -/
def yielded (n : Nat) (r : RecordReader) : List RecordMessage :=
  (readCalls n r).1.reduceOption

/-- The messages yielded by repeated `ReadMessage` calls up to the first
end-of-stream, making at most `n` calls. -/
def readUntilEnd : Nat → RecordReader → List RecordMessage
  | 0, _ => []
  | n + 1, r =>
      match ReadMessage r with
      | (some message, r1) => message :: readUntilEnd n r1
      | (none, _) => []

/-! ## Specification vocabulary -/

/-- The record a stored message is copied into when it is yielded. -/
def SingleMessage.toRecord (m : SingleMessage) : RecordMessage :=
  { channel_name := m.channel_name, content := m.content, time := m.time }

/-- All messages of the decodable `CHUNK_BODY` sections, in file order. -/
def allMessages : List Section → List SingleMessage
  | [] => []
  | Section.chunkBody (some messages) :: rest => messages ++ allMessages rest
  | _ :: rest => allMessages rest

/-- A message passes the channel filter: the filter is empty or contains its channel. -/
def passesFilter (channels : List String) (m : RecordMessage) : Prop :=
  channels ≠ [] → m.channel_name ∈ channels

instance (channels : List String) (m : RecordMessage) : Decidable (passesFilter channels m) := by
  unfold passesFilter; infer_instance

/-- A message lies in the reader's window and passes its channel filter. -/
def matchesReader (r : RecordReader) (m : RecordMessage) : Prop :=
  r.begin_time_ ≤ m.time ∧ m.time ≤ r.end_time_ ∧ passesFilter r.channels_ m

instance (r : RecordReader) (m : RecordMessage) : Decidable (matchesReader r m) := by
  unfold matchesReader; infer_instance

/-- The `OnNewMessage` invocations of a trace, as the channel names passed. -/
def messageEvents : List Event → List String
  | [] => []
  | Event.newMessage c :: rest => c :: messageEvents rest
  | Event.newChannel _ _ _ :: rest => messageEvents rest

/-- The `OnNewChannel` invocations of a trace, as the channel names passed. -/
def channelEvents : List Event → List String
  | [] => []
  | Event.newChannel c _ _ :: rest => c :: channelEvents rest
  | Event.newMessage _ :: rest => channelEvents rest

/-- The `OnNewChannel` invocations that the decodable `CHANNEL` sections of a
stretch of the stream call for, in file order. -/
def sectionChannelEvents : List Section → List Event
  | [] => []
  | Section.channel (some c) :: rest =>
      Event.newChannel c.name c.message_type c.proto_desc :: sectionChannelEvents rest
  | _ :: rest => sectionChannelEvents rest

/-- The channel names of the decodable `CHANNEL` sections, in file order. -/
def sectionChannels (secs : List Section) : List String :=
  channelEvents (sectionChannelEvents secs)

/-- The messages still ahead of the reader: the rest of the current chunk, then
the messages of the decodable chunk bodies not yet read. -/
def pending (r : RecordReader) : List SingleMessage :=
  r.chunk_.drop r.index_ ++ allMessages r.file_reader_.remaining

/-- In a trace, every `OnNewMessage` for a channel comes after an `OnNewChannel`
for that channel. -/
def AnnouncedFirst (tr : List Event) : Prop :=
  ∀ before c after, tr = before ++ Event.newMessage c :: after → c ∈ channelEvents before

/-- Every message of a decodable chunk body is on a channel that is in `declared`
or is declared by a decodable `CHANNEL` section earlier in the stream. -/
def declaredBeforeUse : List String → List Section → Bool
  | _, [] => true
  | declared, Section.channel (some c) :: rest => declaredBeforeUse (c.name :: declared) rest
  | declared, Section.chunkBody (some messages) :: rest =>
      messages.all (fun m => decide (m.channel_name ∈ declared)) &&
        declaredBeforeUse declared rest
  | declared, _ :: rest => declaredBeforeUse declared rest

/-- The position invariant: the `OnNewChannel` invocations so far are those of
the decodable `CHANNEL` sections among the sections read so far. -/
def ChannelsReported (secs : List Section) (r : RecordReader) : Prop :=
  ∃ consumed, secs = consumed ++ r.file_reader_.remaining ∧
    channelEvents r.trace = sectionChannels consumed

/-- The announcement invariant: every message of the current chunk is on a
channel already reported, and so was every message yielded so far. -/
def ChannelsAnnounced (r : RecordReader) : Prop :=
  (∀ m ∈ r.chunk_, m.channel_name ∈ channelEvents r.trace) ∧ AnnouncedFirst r.trace

/-- The chunks of a stream: every decodable `CHUNK_HEADER` that is directly
followed by a decodable `CHUNK_BODY`, paired with that body's messages. -/
def chunkPairs : List Section → List (ChunkHeader × List SingleMessage)
  | [] => []
  | Section.chunkHeader (some header) :: Section.chunkBody (some messages) :: rest =>
      (header, messages) :: chunkPairs rest
  | _ :: rest => chunkPairs rest

/-- Every section is of a known type and decodes, and chunk headers and chunk
bodies come in pairs, each header directly followed by its body. -/
def wellFramed : List Section → Bool
  | [] => true
  | Section.index _ :: rest => wellFramed rest
  | Section.channel (some _) :: rest => wellFramed rest
  | Section.chunkHeader (some _) :: Section.chunkBody (some _) :: rest => wellFramed rest
  | _ => false

/-- A well-formed, time-ordered file: well framed; every message's time lies in
its chunk header's span and in the file header's span; chunk spans and message
times are non-decreasing in file order. -/
def WellFormedOrdered (file : RecordFileReader) : Prop :=
  wellFramed file.sections = true ∧
  (∀ p ∈ chunkPairs file.sections, ∀ m ∈ p.2,
    p.1.begin_time ≤ m.time ∧ m.time ≤ p.1.end_time ∧
    file.header.begin_time ≤ m.time ∧ m.time ≤ file.header.end_time) ∧
  ((chunkPairs file.sections).map Prod.fst).Pairwise
    (fun a b => a.begin_time ≤ b.begin_time ∧ a.end_time ≤ b.end_time) ∧
  ((allMessages file.sections).map SingleMessage.time).Pairwise (· ≤ ·)

instance (file : RecordFileReader) : Decidable (WellFormedOrdered file) := by
  unfold WellFormedOrdered; infer_instance

/-- The run of the `while` loop of `ReadNextChunk` over a stretch of sections
every one of which ends in `break` (none returns): the value of
`skip_next_chunk_body` after the stretch, or `none` when some section of the
stretch makes `ReadNextChunk` return. -/
def scanContinues (r : RecordReader) : List Section → Bool → Option Bool
  | [], skip => some skip
  | Section.index _ :: rest, skip => scanContinues r rest skip
  | Section.channel none :: _, _ => none
  | Section.channel (some _) :: rest, skip => scanContinues r rest skip
  | Section.chunkHeader none :: _, _ => none
  | Section.chunkHeader (some header) :: rest, skip =>
      if r.begin_time_ > header.end_time then none
      else if r.end_time_ < header.begin_time then scanContinues r rest true
      else scanContinues r rest skip
  | Section.chunkBody _ :: rest, skip =>
      if skip then scanContinues r rest false else none
  | Section.other _ :: _, _ => none

/-- A section on which `ReadNextChunk` gives up: a `CHANNEL`, `CHUNK_HEADER` or
(when not marked for skipping) `CHUNK_BODY` section that fails to decode, or a
section of unrecognised type. -/
def fatalSection (skip : Bool) : Section → Bool
  | Section.channel none => true
  | Section.chunkHeader none => true
  | Section.chunkBody none => !skip
  | Section.other _ => true
  | _ => false

/-- A message the message loop passes over: it is not later than the end time,
and it is earlier than the begin time or excluded by a non-empty channel
filter. -/
def skippable (r : RecordReader) (m : SingleMessage) : Prop :=
  m.time ≤ r.end_time_ ∧
    (m.time < r.begin_time_ ∨ (r.channels_ ≠ [] ∧ m.channel_name ∉ r.channels_))

instance (r : RecordReader) (m : SingleMessage) : Decidable (skippable r m) := by
  unfold skippable; infer_instance

/-- The number of `CHUNK_BODY` sections in a stretch of the stream. -/
def chunkBodyCount : List Section → Nat
  | [] => 0
  | Section.chunkBody _ :: rest => chunkBodyCount rest + 1
  | _ :: rest => chunkBodyCount rest

/-- The number of nested self-invocations (line 75) that `ReadMessage.go` makes:
the same control flow as `ReadMessage.go`, counting instead of returning. -/
def ReadMessage.retries : Nat → RecordReader → Nat
  | 0, _ => 0
  | fuel + 1, r =>
      match ReadMessage.loop r (r.chunk_.drop r.index_) r.index_ with
      | (LoopExit.returnTrue _, _) => 0
      | (LoopExit.returnFalse, _) => 0
      | (LoopExit.exhausted, index) =>
          match ReadNextChunk { r with index_ := index } with
          | (true, r1) => ReadMessage.retries fuel { r1 with index_ := 0 } + 1
          | (false, _) => 0

/-- The `OnNewChannel` invocations of a trace, with their arguments. -/
def channelCalls : List Event → List Event
  | [] => []
  | Event.newChannel name message_type proto_desc :: rest =>
      Event.newChannel name message_type proto_desc :: channelCalls rest
  | Event.newMessage _ :: rest => channelCalls rest

/-- In a trace over the stream `secs`, every `OnNewMessage` is for a message of
some decoded chunk body of the stream, and the `OnNewChannel` invocations made
before it are exactly those of the `CHANNEL` sections that precede that chunk
body. -/
def YieldsAfterChannels (secs : List Section) (tr : List Event) : Prop :=
  ∀ earlier c later, tr = earlier ++ Event.newMessage c :: later →
    ∃ before messages after m,
      secs = before ++ Section.chunkBody (some messages) :: after ∧
      m ∈ messages ∧ m.channel_name = c ∧
      channelCalls earlier = sectionChannelEvents before

/-- The discovery invariant over the stream `secs`: the `OnNewChannel`
invocations so far are those of the sections read so far; the current chunk,
unless used up, is the last section read; and the trace so far satisfies
`YieldsAfterChannels`. -/
def ChannelsDiscovered (secs : List Section) (r : RecordReader) : Prop :=
  ∃ consumed, secs = consumed ++ r.file_reader_.remaining ∧
    channelCalls r.trace = sectionChannelEvents consumed ∧
    (r.chunk_.drop r.index_ = [] ∨
      ∃ before, consumed = before ++ [Section.chunkBody (some r.chunk_)]) ∧
    YieldsAfterChannels secs r.trace

/-- Two readers agree on everything but the Section Source. -/
def sameState (r r1 : RecordReader) : Prop :=
  r.begin_time_ = r1.begin_time_ ∧ r.end_time_ = r1.end_time_ ∧ r.channels_ = r1.channels_ ∧
  r.header_ = r1.header_ ∧ r.chunk_ = r1.chunk_ ∧ r.index_ = r1.index_ ∧ r.trace = r1.trace

/-- A section stream with its `INDEX` sections removed. -/
def dropIndex : List Section → List Section
  | [] => []
  | Section.index _ :: rest => dropIndex rest
  | s :: rest => s :: dropIndex rest

/-- Two readers agree on everything but the Section Source, and their unread
sections differ only in `INDEX` sections. -/
def IndexRelated (r r1 : RecordReader) : Prop :=
  sameState r r1 ∧ dropIndex r.file_reader_.remaining = dropIndex r1.file_reader_.remaining

/-- Two readers with a well-formed window that ends before the chunk `header`
begins agree on everything but the Section Source, and their unread sections
are equal or differ only in the chunk body that directly follows `header`. -/
def SkippedBodyRelated (header : ChunkHeader) (after : List Section)
    (r r1 : RecordReader) : Prop :=
  sameState r r1 ∧ r.begin_time_ ≤ r.end_time_ ∧ header.begin_time ≤ header.end_time ∧
  r.end_time_ < header.begin_time ∧
  ((∃ before body body1,
      r.file_reader_.remaining =
        before ++ Section.chunkHeader (some header) :: Section.chunkBody body :: after ∧
      r1.file_reader_.remaining =
        before ++ Section.chunkHeader (some header) :: Section.chunkBody body1 :: after) ∨
    r.file_reader_.remaining = r1.file_reader_.remaining)

/-- A section of known type that decodes, with a chunk header's span, or every
message time of a chunk body, inside `[lo, hi]`. -/
def sectionWithin (lo hi : Nat) : Section → Bool
  | Section.index _ => true
  | Section.channel (some _) => true
  | Section.chunkHeader (some header) =>
      decide (lo ≤ header.begin_time) && decide (header.begin_time ≤ hi) &&
        decide (lo ≤ header.end_time) && decide (header.end_time ≤ hi)
  | Section.chunkBody (some messages) =>
      messages.all (fun m => decide (lo ≤ m.time) && decide (m.time ≤ hi))
  | _ => false

/-- The records of the messages that pass the channel filter, in order. -/
def passing (channels : List String) (messages : List SingleMessage) : List RecordMessage :=
  (messages.map SingleMessage.toRecord).filter (fun m => decide (passesFilter channels m))

/-- The window covers everything ahead of the reader: the messages of the
current chunk and all unread sections lie inside it, and these all decode. -/
def FullRange (r : RecordReader) : Prop :=
  (∀ m ∈ r.chunk_, r.begin_time_ ≤ m.time ∧ m.time ≤ r.end_time_) ∧
  r.file_reader_.remaining.all (sectionWithin r.begin_time_ r.end_time_) = true

/-- The function `ReadMessage` run on a call stack with room for `frames` nested
invocations of it. The self-invocation at line 75 is a call (the compiler is
not assumed to turn it into a jump), so each chunk that is loaded and yields
nothing takes one more frame; `none` is the call stack running out. The
control flow is that of `ReadMessage.go`; a result, when there is one, is the
result of `ReadMessage`. -/
def ReadMessage.onStack : Nat → RecordReader → Option (Option RecordMessage × RecordReader)
  | 0, _ => none
  | frames + 1, r =>
      match ReadMessage.loop r (r.chunk_.drop r.index_) r.index_ with
      | (LoopExit.returnTrue message, index) =>
          some (some message,
            { r with index_ := index,
                     trace := r.trace ++ [Event.newMessage message.channel_name] })
      | (LoopExit.returnFalse, index) => some (none, { r with index_ := index })
      | (LoopExit.exhausted, index) =>
          match ReadNextChunk { r with index_ := index } with
          | (true, r1) => ReadMessage.onStack frames { r1 with index_ := 0 }
          | (false, r1) => some (none, r1)

/-- A run of `k` chunks spanning `[0,100]`, each holding one `camera` message. -/
def sparseSections : Nat → List Section
  | 0 => []
  | k + 1 =>
      Section.chunkHeader (some { begin_time := 0, end_time := 100 }) ::
        Section.chunkBody (some [{ channel_name := "camera", content := "c", time := 1 }]) ::
          sparseSections k

/-! ## Example files -/

/-- A time-ordered file: header `[0,100]`, one channel, chunk `[0,30]` holding
messages at 10 and 25, then chunk `[60,90]` holding a message at 70. -/
def twoChunkFile : RecordFileReader :=
  { header := { begin_time := 0, end_time := 100 }
    sections :=
      [ Section.channel (some { name := "a", message_type := "t", proto_desc := "d" }),
        Section.chunkHeader (some { begin_time := 0, end_time := 30 }),
        Section.chunkBody (some [{ channel_name := "a", content := "x", time := 10 },
                                 { channel_name := "a", content := "y", time := 25 }]),
        Section.chunkHeader (some { begin_time := 60, end_time := 90 }),
        Section.chunkBody (some [{ channel_name := "a", content := "z", time := 70 }]) ]
    remaining := [] }

/-- A file with one chunk mixing messages on channels `imu` and `camera`. -/
def mixedChannelFile : RecordFileReader :=
  { header := { begin_time := 0, end_time := 100 }
    sections :=
      [ Section.channel (some { name := "imu", message_type := "t", proto_desc := "d" }),
        Section.channel (some { name := "camera", message_type := "u", proto_desc := "d" }),
        Section.chunkHeader (some { begin_time := 0, end_time := 100 }),
        Section.chunkBody (some [{ channel_name := "imu", content := "i1", time := 1 },
                                 { channel_name := "camera", content := "c1", time := 2 },
                                 { channel_name := "imu", content := "i2", time := 3 },
                                 { channel_name := "camera", content := "c2", time := 4 }]) ]
    remaining := [] }

/-- A file whose first chunk body fails to decode and whose second chunk is sound. -/
def brokenChunkFile : RecordFileReader :=
  { header := { begin_time := 0, end_time := 100 }
    sections :=
      [ Section.chunkHeader (some { begin_time := 0, end_time := 50 }),
        Section.chunkBody none,
        Section.chunkHeader (some { begin_time := 50, end_time := 100 }),
        Section.chunkBody (some [{ channel_name := "a", content := "w", time := 60 }]) ]
    remaining := [] }

/-- A file with the single chunk `[20,30]` holding one message at time 25. -/
def oneChunkFile : RecordFileReader :=
  { header := { begin_time := 0, end_time := 100 }
    sections :=
      [ Section.chunkHeader (some { begin_time := 20, end_time := 30 }),
        Section.chunkBody (some [{ channel_name := "a", content := "v", time := 25 }]) ]
    remaining := [] }

/-- A file in which the same channel is declared by two `CHANNEL` sections. -/
def repeatedChannelFile : RecordFileReader :=
  { header := { begin_time := 0, end_time := 100 }
    sections :=
      [ Section.channel (some { name := "a", message_type := "t", proto_desc := "d" }),
        Section.channel (some { name := "a", message_type := "t", proto_desc := "d" }),
        Section.chunkHeader (some { begin_time := 0, end_time := 100 }),
        Section.chunkBody (some [{ channel_name := "a", content := "x", time := 5 }]) ]
    remaining := [] }

/-- The file `twoChunkFile` with `INDEX` sections inserted, one of them between
a chunk header and its chunk body. -/
def indexedTwoChunkFile : RecordFileReader :=
  { header := { begin_time := 0, end_time := 100 }
    sections :=
      [ Section.index 8,
        Section.channel (some { name := "a", message_type := "t", proto_desc := "d" }),
        Section.chunkHeader (some { begin_time := 0, end_time := 30 }),
        Section.index 16,
        Section.chunkBody (some [{ channel_name := "a", content := "x", time := 10 },
                                 { channel_name := "a", content := "y", time := 25 }]),
        Section.chunkHeader (some { begin_time := 60, end_time := 90 }),
        Section.chunkBody (some [{ channel_name := "a", content := "z", time := 70 }]),
        Section.index 4 ]
    remaining := [] }

/-- A file with header `[0,100]` whose stream is a run of `k` chunks that hold
only `camera` messages. -/
def sparseFile (k : Nat) : RecordFileReader :=
  { header := { begin_time := 0, end_time := 100 }
    sections := sparseSections k
    remaining := [] }

/-! ## Traces and section lists -/

theorem messageEvents_append (a b : List Event) :
    messageEvents (a ++ b) = messageEvents a ++ messageEvents b := by
  induction a with
  | nil => rfl
  | cons e a ih => cases e <;> simp [messageEvents, ih]

theorem channelEvents_append (a b : List Event) :
    channelEvents (a ++ b) = channelEvents a ++ channelEvents b := by
  induction a with
  | nil => rfl
  | cons e a ih => cases e <;> simp [channelEvents, ih]

theorem messageEvents_sectionChannelEvents (secs : List Section) :
    messageEvents (sectionChannelEvents secs) = [] := by
  induction secs with
  | nil => rfl
  | cons s rest ih =>
    cases s with
    | channel b => cases b <;> simp [sectionChannelEvents, messageEvents, ih]
    | _ => simp [sectionChannelEvents, ih]

theorem sectionChannelEvents_append (a b : List Section) :
    sectionChannelEvents (a ++ b) = sectionChannelEvents a ++ sectionChannelEvents b := by
  induction a with
  | nil => rfl
  | cons s rest ih =>
    cases s with
    | channel b => cases b <;> simp [sectionChannelEvents, ih]
    | _ => simp [sectionChannelEvents, ih]

theorem sectionChannels_append (a b : List Section) :
    sectionChannels (a ++ b) = sectionChannels a ++ sectionChannels b := by
  simp [sectionChannels, sectionChannelEvents_append, channelEvents_append]

theorem allMessages_append (a b : List Section) :
    allMessages (a ++ b) = allMessages a ++ allMessages b := by
  induction a with
  | nil => rfl
  | cons s rest ih =>
    cases s with
    | chunkBody b => cases b <;> simp [allMessages, ih]
    | _ => simp [allMessages, ih]

/-! ## The section scan -/

/-- The fields `ReadNextChunk` never writes. -/
theorem ReadNextChunk.loop_frame (r : RecordReader) (secs : List Section) (skip : Bool)
    (tr : List Event) :
    (ReadNextChunk.loop r secs skip tr).2.begin_time_ = r.begin_time_ ∧
    (ReadNextChunk.loop r secs skip tr).2.end_time_ = r.end_time_ ∧
    (ReadNextChunk.loop r secs skip tr).2.channels_ = r.channels_ ∧
    (ReadNextChunk.loop r secs skip tr).2.header_ = r.header_ ∧
    (ReadNextChunk.loop r secs skip tr).2.index_ = r.index_ ∧
    (ReadNextChunk.loop r secs skip tr).2.file_reader_.header = r.file_reader_.header ∧
    (ReadNextChunk.loop r secs skip tr).2.file_reader_.sections = r.file_reader_.sections := by
  induction secs generalizing skip tr with
  | nil => simp [ReadNextChunk.loop]
  | cons s rest ih =>
    cases s with
    | index n => simpa [ReadNextChunk.loop] using ih skip tr
    | channel b =>
      cases b with
      | none => simp [ReadNextChunk.loop]
      | some c => simpa [ReadNextChunk.loop] using ih skip _
    | chunkHeader b =>
      cases b with
      | none => simp [ReadNextChunk.loop]
      | some h =>
        simp only [ReadNextChunk.loop]
        split
        · simp
        · split
          · exact ih true tr
          · exact ih skip tr
    | chunkBody b =>
      simp only [ReadNextChunk.loop]
      split
      · exact ih false tr
      · cases b <;> simp
    | other t => simp [ReadNextChunk.loop]

/-- What one scan does to the stream position, the trace and the current chunk:
it consumes a stretch `consumed` of the unread sections, reports the decodable
`CHANNEL` sections of that stretch, and loads a chunk exactly when it returns
true, the chunk being the last section consumed. -/
theorem ReadNextChunk.loop_spec (r : RecordReader) (secs : List Section) (skip : Bool)
    (tr : List Event) :
    ∃ consumed, secs = consumed ++ (ReadNextChunk.loop r secs skip tr).2.file_reader_.remaining ∧
      (ReadNextChunk.loop r secs skip tr).2.trace = tr ++ sectionChannelEvents consumed ∧
      ((ReadNextChunk.loop r secs skip tr).1 = true →
        ∃ before messages, consumed = before ++ [Section.chunkBody (some messages)] ∧
          (ReadNextChunk.loop r secs skip tr).2.chunk_ = messages) ∧
      ((ReadNextChunk.loop r secs skip tr).1 = false →
        (ReadNextChunk.loop r secs skip tr).2.chunk_ = r.chunk_) := by
  induction secs generalizing skip tr with
  | nil => exact ⟨[], by simp [ReadNextChunk.loop, sectionChannelEvents]⟩
  | cons s rest ih =>
    have step : ∀ (skip1 : Bool) (tr1 : List Event),
        tr1 = tr ++ sectionChannelEvents [s] →
        ReadNextChunk.loop r (s :: rest) skip tr = ReadNextChunk.loop r rest skip1 tr1 →
        ∃ consumed, s :: rest = consumed ++
            (ReadNextChunk.loop r (s :: rest) skip tr).2.file_reader_.remaining ∧
          (ReadNextChunk.loop r (s :: rest) skip tr).2.trace = tr ++ sectionChannelEvents consumed ∧
          ((ReadNextChunk.loop r (s :: rest) skip tr).1 = true →
            ∃ before messages, consumed = before ++ [Section.chunkBody (some messages)] ∧
              (ReadNextChunk.loop r (s :: rest) skip tr).2.chunk_ = messages) ∧
          ((ReadNextChunk.loop r (s :: rest) skip tr).1 = false →
            (ReadNextChunk.loop r (s :: rest) skip tr).2.chunk_ = r.chunk_) := by
      intro skip1 tr1 htr heq
      obtain ⟨consumed, h1, h2, h3, h4⟩ := ih skip1 tr1
      rw [heq]
      refine ⟨s :: consumed, by rw [List.cons_append, ← h1], ?_, ?_, h4⟩
      · rw [h2, htr, List.append_assoc, ← sectionChannelEvents_append]; rfl
      · intro hb
        obtain ⟨before, messages, hc, hm⟩ := h3 hb
        exact ⟨s :: before, messages, by rw [hc]; rfl, hm⟩
    have stop : (ReadNextChunk.loop r (s :: rest) skip tr).1 = false →
        sectionChannelEvents [s] = [] →
        (ReadNextChunk.loop r (s :: rest) skip tr).2 =
          { r with file_reader_ := { r.file_reader_ with remaining := rest }, trace := tr } →
        ∃ consumed, s :: rest = consumed ++
            (ReadNextChunk.loop r (s :: rest) skip tr).2.file_reader_.remaining ∧
          (ReadNextChunk.loop r (s :: rest) skip tr).2.trace = tr ++ sectionChannelEvents consumed ∧
          ((ReadNextChunk.loop r (s :: rest) skip tr).1 = true →
            ∃ before messages, consumed = before ++ [Section.chunkBody (some messages)] ∧
              (ReadNextChunk.loop r (s :: rest) skip tr).2.chunk_ = messages) ∧
          ((ReadNextChunk.loop r (s :: rest) skip tr).1 = false →
            (ReadNextChunk.loop r (s :: rest) skip tr).2.chunk_ = r.chunk_) := by
      intro hb hs heq
      refine ⟨[s], by rw [heq]; rfl, by rw [heq, hs]; simp, ?_, by intro _; rw [heq]⟩
      intro hb2; rw [hb] at hb2; cases hb2
    cases s with
    | index n => exact step skip tr (by simp [sectionChannelEvents]) (by simp [ReadNextChunk.loop])
    | channel b =>
      cases b with
      | none => exact stop (by simp [ReadNextChunk.loop]) rfl (by simp [ReadNextChunk.loop])
      | some c => exact step skip _ rfl (by simp [ReadNextChunk.loop, sectionChannelEvents])
    | chunkHeader b =>
      cases b with
      | none => exact stop (by simp [ReadNextChunk.loop]) rfl (by simp [ReadNextChunk.loop])
      | some h =>
        by_cases h1 : r.begin_time_ > h.end_time
        · exact stop (by simp [ReadNextChunk.loop, h1]) rfl (by simp [ReadNextChunk.loop, h1])
        · by_cases h2 : r.end_time_ < h.begin_time
          · exact step true tr (by simp [sectionChannelEvents]) (by simp [ReadNextChunk.loop, h1, h2])
          · exact step skip tr (by simp [sectionChannelEvents]) (by simp [ReadNextChunk.loop, h1, h2])
    | chunkBody b =>
      cases skip with
      | true => exact step false tr (by simp [sectionChannelEvents]) (by simp [ReadNextChunk.loop])
      | false =>
        cases b with
        | none => exact stop (by simp [ReadNextChunk.loop]) rfl (by simp [ReadNextChunk.loop])
        | some messages =>
          refine ⟨[Section.chunkBody (some messages)], by simp [ReadNextChunk.loop],
            by simp [ReadNextChunk.loop, sectionChannelEvents], ?_, by simp [ReadNextChunk.loop]⟩
          intro _
          exact ⟨[], messages, rfl, by simp [ReadNextChunk.loop]⟩
    | other t => exact stop (by simp [ReadNextChunk.loop]) rfl (by simp [ReadNextChunk.loop])


/-! ## The message loop -/

/-- What the message loop did when it ends on a `return true`: it passed over
non-matching messages and stopped just after the first matching one. -/
theorem ReadMessage.loop_returnTrue (r : RecordReader) (ms : List SingleMessage) (i j : Nat)
    (message : RecordMessage) (h : ReadMessage.loop r ms i = (LoopExit.returnTrue message, j)) :
    ∃ skipped m rest, ms = skipped ++ m :: rest ∧ j = i + skipped.length + 1 ∧
      message = m.toRecord ∧ matchesReader r message ∧
      ∀ s ∈ skipped, s.time ≤ r.end_time_ ∧ ¬ matchesReader r s.toRecord := by
  induction ms generalizing i with
  | nil => simp [ReadMessage.loop] at h
  | cons m rest ih =>
    have cont : ReadMessage.loop r rest (i + 1) = (LoopExit.returnTrue message, j) →
        m.time ≤ r.end_time_ → ¬ matchesReader r m.toRecord →
        ∃ skipped m1 rest1, m :: rest = skipped ++ m1 :: rest1 ∧ j = i + skipped.length + 1 ∧
          message = m1.toRecord ∧ matchesReader r message ∧
          ∀ s ∈ skipped, s.time ≤ r.end_time_ ∧ ¬ matchesReader r s.toRecord := by
      intro h1 h2 h3
      obtain ⟨skipped, m1, rest1, e1, e2, e3, e4, e5⟩ := ih (i + 1) h1
      refine ⟨m :: skipped, m1, rest1, by rw [e1]; rfl, by simp [e2]; omega, e3, e4, ?_⟩
      intro s hs
      rcases List.mem_cons.mp hs with rfl | hs
      · exact ⟨h2, h3⟩
      · exact e5 s hs
    simp only [ReadMessage.loop] at h
    by_cases h1 : m.time > r.end_time_
    · simp [h1] at h
    · rw [if_neg h1] at h
      by_cases h2 : m.time < r.begin_time_
      · rw [if_pos h2] at h
        exact cont h (by omega) (by simp [matchesReader, SingleMessage.toRecord]; omega)
      · rw [if_neg h2] at h
        by_cases h3 : r.channels_ ≠ [] ∧ m.channel_name ∉ r.channels_
        · rw [if_pos h3] at h
          refine cont h (by omega) ?_
          simp only [matchesReader, passesFilter, SingleMessage.toRecord]
          intro hm
          exact h3.2 (hm.2.2 h3.1)
        · rw [if_neg h3] at h
          simp only [Prod.mk.injEq, LoopExit.returnTrue.injEq] at h
          refine ⟨[], m, rest, rfl, by simp [h.2], h.1.symm, ?_, by simp⟩
          rw [← h.1]
          refine ⟨by simpa using h2, by simpa using h1, ?_⟩
          intro hne
          by_contra hc
          exact h3 ⟨hne, hc⟩

/-- What the message loop did when it ends on the `return false` of line 56: it
passed over non-matching messages and stopped just after one later than the
window. -/
theorem ReadMessage.loop_returnFalse (r : RecordReader) (ms : List SingleMessage) (i j : Nat)
    (h : ReadMessage.loop r ms i = (LoopExit.returnFalse, j)) :
    ∃ skipped m rest, ms = skipped ++ m :: rest ∧ j = i + skipped.length + 1 ∧
      r.end_time_ < m.time ∧
      ∀ s ∈ skipped, s.time ≤ r.end_time_ ∧ ¬ matchesReader r s.toRecord := by
  induction ms generalizing i with
  | nil => simp [ReadMessage.loop] at h
  | cons m rest ih =>
    have cont : ReadMessage.loop r rest (i + 1) = (LoopExit.returnFalse, j) →
        m.time ≤ r.end_time_ → ¬ matchesReader r m.toRecord →
        ∃ skipped m1 rest1, m :: rest = skipped ++ m1 :: rest1 ∧ j = i + skipped.length + 1 ∧
          r.end_time_ < m1.time ∧
          ∀ s ∈ skipped, s.time ≤ r.end_time_ ∧ ¬ matchesReader r s.toRecord := by
      intro h1 h2 h3
      obtain ⟨skipped, m1, rest1, e1, e2, e3, e5⟩ := ih (i + 1) h1
      refine ⟨m :: skipped, m1, rest1, by rw [e1]; rfl, by simp [e2]; omega, e3, ?_⟩
      intro s hs
      rcases List.mem_cons.mp hs with rfl | hs
      · exact ⟨h2, h3⟩
      · exact e5 s hs
    simp only [ReadMessage.loop] at h
    by_cases h1 : m.time > r.end_time_
    · rw [if_pos h1] at h
      simp only [Prod.mk.injEq, true_and] at h
      exact ⟨[], m, rest, rfl, by simp [h], h1, by simp⟩
    · rw [if_neg h1] at h
      by_cases h2 : m.time < r.begin_time_
      · rw [if_pos h2] at h
        exact cont h (by omega) (by simp [matchesReader, SingleMessage.toRecord]; omega)
      · rw [if_neg h2] at h
        by_cases h3 : r.channels_ ≠ [] ∧ m.channel_name ∉ r.channels_
        · rw [if_pos h3] at h
          refine cont h (by omega) ?_
          simp only [matchesReader, passesFilter, SingleMessage.toRecord]
          intro hm
          exact h3.2 (hm.2.2 h3.1)
        · rw [if_neg h3] at h
          simp at h

/-- What the message loop did when it runs off the end of the chunk: every
message it passed over is within the end time and does not match. -/
theorem ReadMessage.loop_exhausted (r : RecordReader) (ms : List SingleMessage) (i j : Nat)
    (h : ReadMessage.loop r ms i = (LoopExit.exhausted, j)) :
    j = i + ms.length ∧ ∀ s ∈ ms, s.time ≤ r.end_time_ ∧ ¬ matchesReader r s.toRecord := by
  induction ms generalizing i with
  | nil => simp [ReadMessage.loop] at h; simp [h]
  | cons m rest ih =>
    have cont : ReadMessage.loop r rest (i + 1) = (LoopExit.exhausted, j) →
        m.time ≤ r.end_time_ → ¬ matchesReader r m.toRecord →
        j = i + (m :: rest).length ∧
          ∀ s ∈ m :: rest, s.time ≤ r.end_time_ ∧ ¬ matchesReader r s.toRecord := by
      intro h1 h2 h3
      obtain ⟨e1, e2⟩ := ih (i + 1) h1
      refine ⟨by simp [e1]; omega, ?_⟩
      intro s hs
      rcases List.mem_cons.mp hs with rfl | hs
      · exact ⟨h2, h3⟩
      · exact e2 s hs
    simp only [ReadMessage.loop] at h
    by_cases h1 : m.time > r.end_time_
    · simp [h1] at h
    · rw [if_neg h1] at h
      by_cases h2 : m.time < r.begin_time_
      · rw [if_pos h2] at h
        exact cont h (by omega) (by simp [matchesReader, SingleMessage.toRecord]; omega)
      · rw [if_neg h2] at h
        by_cases h3 : r.channels_ ≠ [] ∧ m.channel_name ∉ r.channels_
        · rw [if_pos h3] at h
          refine cont h (by omega) ?_
          simp only [matchesReader, passesFilter, SingleMessage.toRecord]
          intro hm
          exact h3.2 (hm.2.2 h3.1)
        · rw [if_neg h3] at h
          simp at h


/-! ## One call of `ReadMessage` -/

/-- The fields of the reader that a scan leaves alone, and what it does to the
others (see `ReadNextChunk.loop_spec`). -/
theorem ReadNextChunk_spec (r r1 : RecordReader) (b : Bool) (h : ReadNextChunk r = (b, r1)) :
    (r1.begin_time_ = r.begin_time_ ∧ r1.end_time_ = r.end_time_ ∧ r1.channels_ = r.channels_ ∧
      r1.header_ = r.header_ ∧ r1.index_ = r.index_ ∧
      r1.file_reader_.header = r.file_reader_.header ∧
      r1.file_reader_.sections = r.file_reader_.sections) ∧
    ∃ consumed, r.file_reader_.remaining = consumed ++ r1.file_reader_.remaining ∧
      r1.trace = r.trace ++ sectionChannelEvents consumed ∧
      (b = true → ∃ before messages,
        consumed = before ++ [Section.chunkBody (some messages)] ∧ r1.chunk_ = messages) ∧
      (b = false → r1.chunk_ = r.chunk_) := by
  have hf := ReadNextChunk.loop_frame r r.file_reader_.remaining false r.trace
  have hs := ReadNextChunk.loop_spec r r.file_reader_.remaining false r.trace
  unfold ReadNextChunk at h
  rw [h] at hf hs
  exact ⟨hf, hs⟩

/-- Case analysis and induction for `ReadMessage.go`, following the four ways the
function body can end and the self-invocation. -/
theorem ReadMessage.go_cases (P : RecordReader → Option RecordMessage × RecordReader → Prop)
    (fuelOut : ∀ r, P r (none, r))
    (retTrue : ∀ r message index,
      ReadMessage.loop r (r.chunk_.drop r.index_) r.index_ = (LoopExit.returnTrue message, index) →
      P r (some message, { r with index_ := index,
                                  trace := r.trace ++ [Event.newMessage message.channel_name] }))
    (retFalse : ∀ r index,
      ReadMessage.loop r (r.chunk_.drop r.index_) r.index_ = (LoopExit.returnFalse, index) →
      P r (none, { r with index_ := index }))
    (scanFalse : ∀ r index r1,
      ReadMessage.loop r (r.chunk_.drop r.index_) r.index_ = (LoopExit.exhausted, index) →
      ReadNextChunk { r with index_ := index } = (false, r1) → P r (none, r1))
    (retry : ∀ r index r1 res,
      ReadMessage.loop r (r.chunk_.drop r.index_) r.index_ = (LoopExit.exhausted, index) →
      ReadNextChunk { r with index_ := index } = (true, r1) →
      P { r1 with index_ := 0 } res → P r res)
    (fuel : Nat) (r : RecordReader) : P r (ReadMessage.go fuel r) := by
  induction fuel generalizing r with
  | zero => exact fuelOut r
  | succ fuel ih =>
    unfold ReadMessage.go
    rcases hl : ReadMessage.loop r (r.chunk_.drop r.index_) r.index_ with ⟨exit, index⟩
    cases exit with
    | returnTrue message => exact retTrue r message index hl
    | returnFalse => exact retFalse r index hl
    | exhausted =>
      dsimp only
      rcases hn : ReadNextChunk { r with index_ := index } with ⟨b, r1⟩
      cases b with
      | true => exact retry r index r1 _ hl hn (ih _)
      | false => exact scanFalse r index r1 hl hn

theorem drop_of_drop_eq {α : Type} {l a b : List α} {i : Nat} (h : l.drop i = a ++ b) :
    l.drop (i + a.length) = b := by
  rw [← List.drop_drop, h, List.drop_left]

/-- A call never writes the window, the filter, the header or the file's stream. -/
theorem ReadMessage.go_frame (fuel : Nat) (r : RecordReader) :
    (ReadMessage.go fuel r).2.begin_time_ = r.begin_time_ ∧
    (ReadMessage.go fuel r).2.end_time_ = r.end_time_ ∧
    (ReadMessage.go fuel r).2.channels_ = r.channels_ ∧
    (ReadMessage.go fuel r).2.header_ = r.header_ ∧
    (ReadMessage.go fuel r).2.file_reader_.header = r.file_reader_.header ∧
    (ReadMessage.go fuel r).2.file_reader_.sections = r.file_reader_.sections := by
  refine ReadMessage.go_cases
    (fun r res => res.2.begin_time_ = r.begin_time_ ∧ res.2.end_time_ = r.end_time_ ∧
      res.2.channels_ = r.channels_ ∧ res.2.header_ = r.header_ ∧
      res.2.file_reader_.header = r.file_reader_.header ∧
      res.2.file_reader_.sections = r.file_reader_.sections) ?_ ?_ ?_ ?_ ?_ fuel r
  · intro r; simp
  · intro r message index _; simp
  · intro r index _; simp
  · intro r index r1 _ hn
    obtain ⟨⟨f1, f2, f3, f4, _, f6, f7⟩, _⟩ := ReadNextChunk_spec _ _ _ hn
    exact ⟨f1, f2, f3, f4, f6, f7⟩
  · intro r index r1 res _ hn ih
    obtain ⟨⟨f1, f2, f3, f4, _, f6, f7⟩, _⟩ := ReadNextChunk_spec _ _ _ hn
    obtain ⟨g1, g2, g3, g4, g5, g6⟩ := ih
    exact ⟨g1.trans f1, g2.trans f2, g3.trans f3, g4.trans f4, g5.trans f6, g6.trans f7⟩

/-- A yielded message lies in the window and passes the channel filter. -/
theorem ReadMessage.go_matches (fuel : Nat) (r : RecordReader) (m : RecordMessage)
    (h : (ReadMessage.go fuel r).1 = some m) : matchesReader r m := by
  revert h
  refine ReadMessage.go_cases
    (fun r res => res.1 = some m → matchesReader r m) ?_ ?_ ?_ ?_ ?_ fuel r
  · intro r h; simp at h
  · intro r message index hl h
    obtain ⟨_, _, _, _, _, _, hm, _⟩ := ReadMessage.loop_returnTrue r _ _ _ _ hl
    simp only [Option.some.injEq] at h
    rw [← h]; exact hm
  · intro r index _ h; simp at h
  · intro r index r1 _ _ h; simp at h
  · intro r index r1 res _ hn ih h
    obtain ⟨⟨f1, f2, f3, _⟩, _⟩ := ReadNextChunk_spec _ _ _ hn
    have := ih h
    simp only [matchesReader] at this ⊢
    rw [f1, f2, f3] at this
    exact this

/-- A call moves forward only: what it yields, followed by what is still ahead
afterwards, is a sublist of what was ahead before. -/
theorem ReadMessage.go_sublist (fuel : Nat) (r : RecordReader) :
    ((ReadMessage.go fuel r).1.toList ++
        (pending (ReadMessage.go fuel r).2).map SingleMessage.toRecord).Sublist
      ((pending r).map SingleMessage.toRecord) := by
  refine ReadMessage.go_cases
    (fun r res => (res.1.toList ++ (pending res.2).map SingleMessage.toRecord).Sublist
      ((pending r).map SingleMessage.toRecord)) ?_ ?_ ?_ ?_ ?_ fuel r
  · intro r; simp
  · intro r message index hl
    obtain ⟨skipped, m, rest, e1, e2, e3, _, _⟩ := ReadMessage.loop_returnTrue r _ _ _ _ hl
    have hd : r.chunk_.drop index = rest := by
      have := drop_of_drop_eq (a := skipped ++ [m]) (b := rest) (by simpa using e1)
      rw [e2]; simpa [Nat.add_assoc] using this
    simp only [pending, hd, e1, e3, Option.toList, List.map_append, List.map_cons,
      List.append_assoc, List.singleton_append, List.cons_append]
    exact List.sublist_append_right _ _
  · intro r index hl
    obtain ⟨skipped, m, rest, e1, e2, _, _⟩ := ReadMessage.loop_returnFalse r _ _ _ hl
    have hd : r.chunk_.drop index = rest := by
      have := drop_of_drop_eq (a := skipped ++ [m]) (b := rest) (by simpa using e1)
      rw [e2]; simpa [Nat.add_assoc] using this
    simp only [pending, hd, e1, Option.toList, List.map_append, List.map_cons,
      List.append_assoc, List.nil_append]
    exact (List.sublist_cons_self _ _).trans (List.sublist_append_right _ _)
  · intro r index r1 hl hn
    obtain ⟨⟨_, _, _, _, f5, _⟩, consumed, c1, _, _, c4⟩ := ReadNextChunk_spec _ _ _ hn
    obtain ⟨e1, _⟩ := ReadMessage.loop_exhausted r _ _ _ hl
    dsimp only at c1 c4 f5
    have hd : r1.chunk_.drop r1.index_ = [] := by
      rw [c4 rfl, f5]
      apply List.drop_eq_nil_of_le
      simp only [e1, List.length_drop]; omega
    simp only [pending, hd, c1, allMessages_append, Option.toList, List.nil_append,
      List.map_append]
    exact (List.sublist_append_right _ _).trans (List.sublist_append_right _ _)
  · intro r index r1 res hl hn ih
    obtain ⟨_, consumed, c1, _, c3, _⟩ := ReadNextChunk_spec _ _ _ hn
    obtain ⟨before, messages, c5, c6⟩ := c3 rfl
    dsimp only at c1
    refine ih.trans ?_
    simp only [pending, List.drop_zero, c6, c1, c5, allMessages_append, allMessages,
      List.map_append, List.append_nil, List.append_assoc]
    exact (List.sublist_append_right _ _).trans (List.sublist_append_right _ _)

/-- The `OnNewMessage` invocations of a call: one, with the yielded message's
channel, when it yields, and none otherwise. -/
theorem ReadMessage.go_messageEvents (fuel : Nat) (r : RecordReader) :
    messageEvents (ReadMessage.go fuel r).2.trace =
      messageEvents r.trace ++
        (ReadMessage.go fuel r).1.toList.map RecordMessage.channel_name := by
  refine ReadMessage.go_cases
    (fun r res => messageEvents res.2.trace =
      messageEvents r.trace ++ res.1.toList.map RecordMessage.channel_name) ?_ ?_ ?_ ?_ ?_ fuel r
  · intro r; simp
  · intro r message index _
    simp [messageEvents_append, messageEvents]
  · intro r index _; simp
  · intro r index r1 _ hn
    obtain ⟨_, consumed, _, c2, _, _⟩ := ReadNextChunk_spec _ _ _ hn
    simp [c2, messageEvents_append, messageEvents_sectionChannelEvents]
  · intro r index r1 res _ hn ih
    obtain ⟨_, consumed, _, c2, _, _⟩ := ReadNextChunk_spec _ _ _ hn
    rw [ih]
    simp [c2, messageEvents_append, messageEvents_sectionChannelEvents]


/-- The depth bound of `ReadMessage` is never reached: any two bounds above the
number of unread sections give the same result. -/
theorem ReadMessage.go_fuel (f1 f2 : Nat) (r : RecordReader)
    (h1 : r.file_reader_.remaining.length < f1) (h2 : r.file_reader_.remaining.length < f2) :
    ReadMessage.go f1 r = ReadMessage.go f2 r := by
  induction f1 generalizing f2 r with
  | zero => omega
  | succ f1 ih =>
    cases f2 with
    | zero => omega
    | succ f2 =>
      unfold ReadMessage.go
      rcases hl : ReadMessage.loop r (r.chunk_.drop r.index_) r.index_ with ⟨exit, index⟩
      cases exit with
      | returnTrue message => rfl
      | returnFalse => rfl
      | exhausted =>
        dsimp only
        rcases hn : ReadNextChunk { r with index_ := index } with ⟨b, r1⟩
        cases b with
        | false => rfl
        | true =>
          obtain ⟨_, consumed, c1, _, c3, _⟩ := ReadNextChunk_spec _ _ _ hn
          obtain ⟨before, messages, c5, _⟩ := c3 rfl
          dsimp only at c1
          have hlen : r1.file_reader_.remaining.length < r.file_reader_.remaining.length := by
            rw [c1, c5]; simp; omega
          dsimp only
          exact ih f2 _ (by dsimp only; omega) (by dsimp only; omega)

/-- The function `ReadMessage` is `ReadMessage.go` at any sufficient depth bound. -/
theorem ReadMessage_eq_go (fuel : Nat) (r : RecordReader)
    (h : r.file_reader_.remaining.length < fuel) : ReadMessage r = ReadMessage.go fuel r :=
  ReadMessage.go_fuel _ _ r (Nat.lt_succ_self _) h

/-! ## Sequences of calls -/

theorem readCalls_frame (n : Nat) (r : RecordReader) :
    (readCalls n r).2.begin_time_ = r.begin_time_ ∧
    (readCalls n r).2.end_time_ = r.end_time_ ∧
    (readCalls n r).2.channels_ = r.channels_ ∧
    (readCalls n r).2.header_ = r.header_ ∧
    (readCalls n r).2.file_reader_.header = r.file_reader_.header ∧
    (readCalls n r).2.file_reader_.sections = r.file_reader_.sections := by
  induction n generalizing r with
  | zero => simp [readCalls]
  | succ n ih =>
    obtain ⟨f1, f2, f3, f4, f5, f6⟩ := ReadMessage.go_frame (r.file_reader_.remaining.length + 1) r
    obtain ⟨g1, g2, g3, g4, g5, g6⟩ := ih (ReadMessage r).2
    simp only [readCalls]
    exact ⟨g1.trans f1, g2.trans f2, g3.trans f3, g4.trans f4, g5.trans f5, g6.trans f6⟩

theorem yielded_succ (n : Nat) (r : RecordReader) :
    yielded (n + 1) r = (ReadMessage r).1.toList ++ yielded n (ReadMessage r).2 := by
  simp only [yielded, readCalls]
  cases (ReadMessage r).1 <;> simp [List.reduceOption_cons_of_some, List.reduceOption_cons_of_none]

theorem readCalls_length (n : Nat) (r : RecordReader) : (readCalls n r).1.length = n := by
  induction n generalizing r with
  | zero => rfl
  | succ n ih => simp [readCalls, ih]

theorem yielded_matches (n : Nat) (r : RecordReader) (m : RecordMessage)
    (h : m ∈ yielded n r) : matchesReader r m := by
  induction n generalizing r with
  | zero => simp [yielded, readCalls] at h
  | succ n ih =>
    rw [yielded_succ, List.mem_append] at h
    rcases h with h | h
    · apply ReadMessage.go_matches (r.file_reader_.remaining.length + 1) r m
      cases hr : (ReadMessage.go (r.file_reader_.remaining.length + 1) r).1 with
      | none => simp [ReadMessage, hr] at h
      | some m1 => simp [ReadMessage, hr] at h; rw [h]
    · obtain ⟨f1, f2, f3, _⟩ := ReadMessage.go_frame (r.file_reader_.remaining.length + 1) r
      have := ih _ h
      simp only [matchesReader, ReadMessage] at this ⊢
      rw [f1, f2, f3] at this
      exact this

theorem yielded_sublist (n : Nat) (r : RecordReader) :
    (yielded n r ++ (pending (readCalls n r).2).map SingleMessage.toRecord).Sublist
      ((pending r).map SingleMessage.toRecord) := by
  induction n generalizing r with
  | zero => simp [yielded, readCalls]
  | succ n ih =>
    rw [yielded_succ, List.append_assoc]
    have h1 := ReadMessage.go_sublist (r.file_reader_.remaining.length + 1) r
    have h2 := ih (ReadMessage r).2
    exact ((List.Sublist.refl _).append h2).trans h1

theorem readCalls_messageEvents (n : Nat) (r : RecordReader) :
    messageEvents (readCalls n r).2.trace =
      messageEvents r.trace ++ (yielded n r).map RecordMessage.channel_name := by
  induction n generalizing r with
  | zero => simp [yielded, readCalls]
  | succ n ih =>
    have h1 := ReadMessage.go_messageEvents (r.file_reader_.remaining.length + 1) r
    have h2 := ih (ReadMessage r).2
    rw [yielded_succ, List.map_append, ← List.append_assoc]
    simp only [readCalls]
    rw [h2]
    exact congrArg (· ++ _) h1

theorem new_window (file : RecordFileReader) (b e : Nat) (channels : List String) :
    (RecordReader.new file b e channels).begin_time_ = max b file.header.begin_time ∧
    (RecordReader.new file b e channels).end_time_ = min e file.header.end_time := by
  simp only [RecordReader.new]
  constructor
  · split <;> omega
  · split <;> omega

/-! ## Scans that stop at a given section -/

theorem scanContinues_index (r : RecordReader) (i : Nat) (secs : List Section) (skip : Bool) :
    scanContinues { r with index_ := i } secs skip = scanContinues r secs skip := by
  induction secs generalizing skip with
  | nil => rfl
  | cons s rest ih =>
    cases s with
    | index n => simpa [scanContinues] using ih skip
    | channel b => cases b <;> simp [scanContinues, ih]
    | chunkHeader b => cases b <;> simp [scanContinues, ih]
    | chunkBody b => simp [scanContinues, ih]
    | other t => simp [scanContinues]

/-- A stretch of sections that all end in `break` is passed over by the scan,
which reports its decodable `CHANNEL` sections and goes on with the rest. -/
theorem ReadNextChunk.loop_append (r : RecordReader) (before rest : List Section)
    (skip skip1 : Bool) (tr : List Event) (h : scanContinues r before skip = some skip1) :
    ReadNextChunk.loop r (before ++ rest) skip tr =
      ReadNextChunk.loop r rest skip1 (tr ++ sectionChannelEvents before) := by
  induction before generalizing skip tr with
  | nil =>
    simp only [scanContinues, Option.some.injEq] at h
    simp [h, sectionChannelEvents]
  | cons s before ih =>
    cases s with
    | index n =>
      simp only [scanContinues] at h
      simpa [ReadNextChunk.loop, sectionChannelEvents] using ih skip tr h
    | channel b =>
      cases b with
      | none => simp [scanContinues] at h
      | some c =>
        simp only [scanContinues] at h
        have := ih skip (tr ++ [Event.newChannel c.name c.message_type c.proto_desc]) h
        simpa [ReadNextChunk.loop, sectionChannelEvents] using this
    | chunkHeader b =>
      cases b with
      | none => simp [scanContinues] at h
      | some header =>
        simp only [scanContinues] at h
        by_cases h1 : r.begin_time_ > header.end_time
        · simp [h1] at h
        · by_cases h2 : r.end_time_ < header.begin_time
          · simp only [h1, h2, if_true, if_false] at h
            simpa [ReadNextChunk.loop, sectionChannelEvents, h1, h2] using ih true tr h
          · simp only [h1, h2, if_false] at h
            simpa [ReadNextChunk.loop, sectionChannelEvents, h1, h2] using ih skip tr h
    | chunkBody b =>
      cases skip with
      | false => simp [scanContinues] at h
      | true =>
        simp only [scanContinues, if_true] at h
        simpa [ReadNextChunk.loop, sectionChannelEvents] using ih false tr h
    | other t => simp [scanContinues] at h

/-- A call whose message loop runs off the current chunk and whose scan then
returns false ends there, with the scan's state. -/
theorem ReadMessage_of_scan_false (r r1 : RecordReader) (index : Nat)
    (hloop : ReadMessage.loop r (r.chunk_.drop r.index_) r.index_ = (LoopExit.exhausted, index))
    (hscan : ReadNextChunk { r with index_ := index } = (false, r1)) :
    ReadMessage r = (none, r1) := by
  simp only [ReadMessage, ReadMessage.go, hloop, hscan]

/-- A call that yields has read no section, or the last section it read is a
decoded chunk body. -/
theorem ReadMessage.go_yield_position (fuel : Nat) (r : RecordReader) (m : RecordMessage)
    (h : (ReadMessage.go fuel r).1 = some m) :
    (ReadMessage.go fuel r).2.file_reader_.remaining = r.file_reader_.remaining ∨
    ∃ before messages, r.file_reader_.remaining =
      before ++ Section.chunkBody (some messages) ::
        (ReadMessage.go fuel r).2.file_reader_.remaining := by
  revert h
  refine ReadMessage.go_cases
    (fun r res => res.1 = some m →
      (res.2.file_reader_.remaining = r.file_reader_.remaining ∨
       ∃ before messages, r.file_reader_.remaining =
         before ++ Section.chunkBody (some messages) :: res.2.file_reader_.remaining))
    ?_ ?_ ?_ ?_ ?_ fuel r
  · intro r h; simp at h
  · intro r message index _ _; exact Or.inl rfl
  · intro r index _ h; simp at h
  · intro r index r1 _ _ h; simp at h
  · intro r index r1 res _ hn ih h
    obtain ⟨_, consumed, c1, _, c3, _⟩ := ReadNextChunk_spec _ _ _ hn
    obtain ⟨before, messages, c5, _⟩ := c3 rfl
    dsimp only at c1
    right
    rcases ih h with h1 | ⟨before1, messages1, h1⟩
    · dsimp only at h1
      exact ⟨before, messages, by rw [c1, c5, h1]; simp⟩
    · dsimp only at h1
      exact ⟨before ++ Section.chunkBody (some messages) :: before1, messages1,
        by rw [c1, c5, h1]; simp⟩

/-! ## Channel announcements -/

theorem channelEvents_sectionChannelEvents (secs : List Section) :
    channelEvents (sectionChannelEvents secs) = sectionChannels secs := rfl

theorem AnnouncedFirst.append_channels {tr ev : List Event} (h : AnnouncedFirst tr)
    (hev : messageEvents ev = []) : AnnouncedFirst (tr ++ ev) := by
  intro before c after heq
  rcases List.append_eq_append_iff.mp heq with ⟨a1, h1, h2⟩ | ⟨c1, h1, h2⟩
  · rw [h2, messageEvents_append] at hev
    simp [messageEvents] at hev
  · cases c1 with
    | nil =>
      simp only [List.nil_append] at h2
      rw [← h2] at hev
      simp [messageEvents] at hev
    | cons x c1 =>
      simp only [List.cons_append, List.cons.injEq] at h2
      rw [← h2.1] at h1
      exact h before c c1 h1

theorem AnnouncedFirst.append_message {tr : List Event} {c : String} (h : AnnouncedFirst tr)
    (hc : c ∈ channelEvents tr) : AnnouncedFirst (tr ++ [Event.newMessage c]) := by
  intro before c1 after heq
  rcases List.append_eq_append_iff.mp heq with ⟨a1, h1, h2⟩ | ⟨c2, h1, h2⟩
  · cases a1 with
    | nil =>
      simp only [List.nil_append, List.cons.injEq, Event.newMessage.injEq] at h2
      simp only [List.append_nil] at h1
      rw [h1, ← h2.1]; exact hc
    | cons x a1 =>
      have := congrArg List.length h2
      simp at this
  · cases c2 with
    | nil =>
      simp only [List.nil_append, List.cons.injEq, Event.newMessage.injEq] at h2
      simp only [List.append_nil] at h1
      rw [← h1, h2.1]; exact hc
    | cons x c2 =>
      simp only [List.cons_append, List.cons.injEq] at h2
      rw [← h2.1] at h1
      exact h before c1 c2 h1

theorem declaredBeforeUse_chunk (declared : List String) (before after : List Section)
    (messages : List SingleMessage)
    (h : declaredBeforeUse declared
      (before ++ Section.chunkBody (some messages) :: after) = true) :
    ∀ m ∈ messages, m.channel_name ∈ declared ∨ m.channel_name ∈ sectionChannels before := by
  induction before generalizing declared with
  | nil =>
    intro m hm
    simp only [List.nil_append, declaredBeforeUse, Bool.and_eq_true, List.all_eq_true,
      decide_eq_true_eq] at h
    exact Or.inl (h.1 m hm)
  | cons s before ih =>
    intro m hm
    cases s with
    | channel b =>
      cases b with
      | none =>
        simp only [List.cons_append, declaredBeforeUse] at h
        simpa [sectionChannels, sectionChannelEvents] using ih declared h m hm
      | some c =>
        simp only [List.cons_append, declaredBeforeUse] at h
        rcases ih (c.name :: declared) h m hm with h1 | h1
        · rcases List.mem_cons.mp h1 with h2 | h2
          · right; simp [sectionChannels, sectionChannelEvents, channelEvents, h2]
          · exact Or.inl h2
        · right
          simp only [sectionChannels, sectionChannelEvents, channelEvents, List.mem_cons]
          exact Or.inr h1
    | chunkBody b =>
      cases b with
      | none =>
        simp only [List.cons_append, declaredBeforeUse] at h
        simpa [sectionChannels, sectionChannelEvents] using ih declared h m hm
      | some ms =>
        simp only [List.cons_append, declaredBeforeUse, Bool.and_eq_true] at h
        simpa [sectionChannels, sectionChannelEvents] using ih declared h.2 m hm
    | index n =>
      simp only [List.cons_append, declaredBeforeUse] at h
      simpa [sectionChannels, sectionChannelEvents] using ih declared h m hm
    | chunkHeader b =>
      simp only [List.cons_append, declaredBeforeUse] at h
      simpa [sectionChannels, sectionChannelEvents] using ih declared h m hm
    | other t =>
      simp only [List.cons_append, declaredBeforeUse] at h
      simpa [sectionChannels, sectionChannelEvents] using ih declared h m hm

theorem ReadMessage.go_channelsReported (secs : List Section) (fuel : Nat) (r : RecordReader)
    (h : ChannelsReported secs r) : ChannelsReported secs (ReadMessage.go fuel r).2 := by
  revert h
  refine ReadMessage.go_cases
    (fun r res => ChannelsReported secs r → ChannelsReported secs res.2) ?_ ?_ ?_ ?_ ?_ fuel r
  · intro r h; exact h
  · intro r message index _ ⟨consumed, h1, h2⟩
    exact ⟨consumed, h1, by simp [channelEvents_append, channelEvents, h2]⟩
  · intro r index _ h; exact h
  · intro r index r1 _ hn ⟨consumed, h1, h2⟩
    obtain ⟨_, consumed1, c1, c2, _, _⟩ := ReadNextChunk_spec _ _ _ hn
    dsimp only at c1 c2
    exact ⟨consumed ++ consumed1, by rw [h1, c1, List.append_assoc],
      by rw [c2, channelEvents_append, h2, sectionChannels_append]; rfl⟩
  · intro r index r1 res _ hn ih ⟨consumed, h1, h2⟩
    obtain ⟨_, consumed1, c1, c2, _, _⟩ := ReadNextChunk_spec _ _ _ hn
    dsimp only at c1 c2
    exact ih ⟨consumed ++ consumed1, by rw [h1, c1, List.append_assoc],
      by rw [c2, channelEvents_append, h2, sectionChannels_append]; rfl⟩

theorem ReadMessage.go_channelsAnnounced (secs : List Section)
    (hsecs : declaredBeforeUse [] secs = true) (fuel : Nat) (r : RecordReader)
    (hr : ChannelsReported secs r) (ha : ChannelsAnnounced r) :
    ChannelsAnnounced (ReadMessage.go fuel r).2 := by
  revert hr ha
  refine ReadMessage.go_cases
    (fun r res => ChannelsReported secs r → ChannelsAnnounced r → ChannelsAnnounced res.2)
    ?_ ?_ ?_ ?_ ?_ fuel r
  · intro r _ h; exact h
  · intro r message index hl _ ⟨a1, a2⟩
    obtain ⟨skipped, m, rest, e1, _, e3, _, _⟩ := ReadMessage.loop_returnTrue r _ _ _ _ hl
    have hm : m ∈ r.chunk_ := by
      apply List.mem_of_mem_drop (n := r.index_)
      rw [e1]; simp
    have hc : message.channel_name ∈ channelEvents r.trace := by
      rw [e3]; exact a1 m hm
    refine ⟨?_, a2.append_message hc⟩
    intro m1 hm1
    simpa [channelEvents_append, channelEvents] using a1 m1 hm1
  · intro r index _ _ h; exact h
  · intro r index r1 _ hn _ ⟨a1, a2⟩
    obtain ⟨_, consumed1, _, c2, _, c4⟩ := ReadNextChunk_spec _ _ _ hn
    dsimp only at c2 c4
    refine ⟨?_, ?_⟩
    · intro m hm
      rw [c4 rfl] at hm
      rw [c2, channelEvents_append]
      exact List.mem_append_left _ (a1 m hm)
    · rw [c2]
      exact a2.append_channels (messageEvents_sectionChannelEvents _)
  · intro r index r1 res _ hn ih ⟨consumed, h1, h2⟩ ⟨_, a2⟩
    obtain ⟨_, consumed1, c1, c2, c3, _⟩ := ReadNextChunk_spec _ _ _ hn
    obtain ⟨before, messages, c5, c6⟩ := c3 rfl
    dsimp only at c1 c2
    have hrep : ChannelsReported secs { r1 with index_ := 0 } :=
      ⟨consumed ++ consumed1, by rw [h1, c1, List.append_assoc],
        by rw [c2, channelEvents_append, h2, sectionChannels_append]; rfl⟩
    apply ih hrep
    refine ⟨?_, ?_⟩
    · intro m hm
      have hm1 : m ∈ messages := by rw [← c6]; exact hm
      have hsplit : secs = (consumed ++ before) ++
          Section.chunkBody (some messages) :: r1.file_reader_.remaining := by
        rw [h1, c1, c5]; simp
      rw [hsplit] at hsecs
      rcases declaredBeforeUse_chunk [] _ _ _ hsecs m hm1 with h3 | h3
      · simp at h3
      · show m.channel_name ∈ channelEvents r1.trace
        rw [c2, channelEvents_append, h2, c5, sectionChannelEvents_append,
          channelEvents_append, channelEvents_sectionChannelEvents, ← List.append_assoc,
          ← sectionChannels_append]
        exact List.mem_append_left _ h3
    · show AnnouncedFirst r1.trace
      rw [c2]
      exact a2.append_channels (messageEvents_sectionChannelEvents _)

theorem readCalls_channelsReported (secs : List Section) (n : Nat) (r : RecordReader)
    (h : ChannelsReported secs r) : ChannelsReported secs (readCalls n r).2 := by
  induction n generalizing r with
  | zero => exact h
  | succ n ih => exact ih _ (ReadMessage.go_channelsReported secs _ r h)

theorem readCalls_channelsAnnounced (secs : List Section)
    (hsecs : declaredBeforeUse [] secs = true) (n : Nat) (r : RecordReader)
    (hr : ChannelsReported secs r) (ha : ChannelsAnnounced r) :
    ChannelsAnnounced (readCalls n r).2 := by
  induction n generalizing r with
  | zero => exact ha
  | succ n ih =>
    exact ih _ (ReadMessage.go_channelsReported secs _ r hr)
      (ReadMessage.go_channelsAnnounced secs hsecs _ r hr ha)

theorem new_channelsReported (file : RecordFileReader) (b e : Nat) (channels : List String) :
    ChannelsReported file.sections (RecordReader.new file b e channels) :=
  ⟨[], by simp [RecordReader.new, RecordFileReader.Reset], rfl⟩

theorem new_channelsAnnounced (file : RecordFileReader) (b e : Nat) (channels : List String) :
    ChannelsAnnounced (RecordReader.new file b e channels) := by
  refine ⟨by simp [RecordReader.new], ?_⟩
  intro before c after h
  simp [RecordReader.new] at h

/-! ## Where a scan ends -/

/-- A scan that passes over a stretch `before` of the unread sections goes on
with the sections after it. -/
theorem ReadNextChunk_of_scan (r : RecordReader) (before rest : List Section) (skip : Bool)
    (hrem : r.file_reader_.remaining = before ++ rest)
    (hscan : scanContinues r before false = some skip) :
    ReadNextChunk r =
      ReadNextChunk.loop r rest skip (r.trace ++ sectionChannelEvents before) := by
  unfold ReadNextChunk
  rw [hrem, ReadNextChunk.loop_append r before rest false skip r.trace hscan]

/-- A scan that returns true passed over a stretch of sections and then decoded
a chunk body that was not marked for skipping. -/
theorem ReadNextChunk.loop_true_split (r r1 : RecordReader) (secs : List Section) (skip : Bool)
    (tr : List Event) (h : ReadNextChunk.loop r secs skip tr = (true, r1)) :
    ∃ before messages rest, secs = before ++ Section.chunkBody (some messages) :: rest ∧
      scanContinues r before skip = some false := by
  induction secs generalizing skip tr with
  | nil => simp [ReadNextChunk.loop] at h
  | cons s secs ih =>
    have step : ∀ (skip1 : Bool) (tr1 : List Event),
        ReadNextChunk.loop r secs skip1 tr1 = (true, r1) →
        scanContinues r [s] skip = some skip1 →
        ∃ before messages rest, s :: secs = before ++ Section.chunkBody (some messages) :: rest ∧
          scanContinues r before skip = some false := by
      intro skip1 tr1 h1 h2
      obtain ⟨before, messages, rest, e1, e2⟩ := ih skip1 tr1 h1
      refine ⟨s :: before, messages, rest, by rw [e1]; rfl, ?_⟩
      cases s with
      | index n => simp only [scanContinues, Option.some.injEq] at h2 ⊢; rw [h2]; exact e2
      | channel b =>
        cases b with
        | none => simp [scanContinues] at h2
        | some c => simp only [scanContinues, Option.some.injEq] at h2 ⊢; rw [h2]; exact e2
      | chunkHeader b =>
        cases b with
        | none => simp [scanContinues] at h2
        | some header =>
          simp only [scanContinues] at h2 ⊢
          by_cases c1 : r.begin_time_ > header.end_time
          · simp [c1] at h2
          · by_cases c2 : r.end_time_ < header.begin_time
            · simp only [c1, c2, if_true, if_false, Option.some.injEq] at h2 ⊢
              rw [h2]; exact e2
            · simp only [c1, c2, if_false, Option.some.injEq] at h2 ⊢
              rw [h2]; exact e2
      | chunkBody b =>
        cases skip with
        | false => simp [scanContinues] at h2
        | true =>
          simp only [scanContinues, if_true, Option.some.injEq] at h2 ⊢
          subst h2; exact e2
      | other t => simp [scanContinues] at h2
    cases s with
    | index n =>
      simp only [ReadNextChunk.loop] at h
      exact step skip tr h (by simp [scanContinues])
    | channel b =>
      cases b with
      | none => simp [ReadNextChunk.loop] at h
      | some c =>
        simp only [ReadNextChunk.loop] at h
        exact step skip _ h (by simp [scanContinues])
    | chunkHeader b =>
      cases b with
      | none => simp [ReadNextChunk.loop] at h
      | some header =>
        simp only [ReadNextChunk.loop] at h
        by_cases c1 : r.begin_time_ > header.end_time
        · simp [c1] at h
        · by_cases c2 : r.end_time_ < header.begin_time
          · simp only [c1, c2, if_true, if_false] at h
            exact step true tr h (by simp [scanContinues, c1, c2])
          · simp only [c1, c2, if_false] at h
            exact step skip tr h (by simp [scanContinues, c1, c2])
    | chunkBody b =>
      cases skip with
      | true =>
        simp only [ReadNextChunk.loop, if_true] at h
        exact step false tr h (by simp [scanContinues])
      | false =>
        cases b with
        | none => simp [ReadNextChunk.loop] at h
        | some messages => exact ⟨[], messages, secs, rfl, rfl⟩
    | other t => simp [ReadNextChunk.loop] at h

/-- A call whose message loop runs off the current chunk and whose scan then
loads a chunk goes on as a call on the reader with that chunk and cursor 0. -/
theorem ReadMessage_of_scan_true (r r1 : RecordReader) (index : Nat)
    (hloop : ReadMessage.loop r (r.chunk_.drop r.index_) r.index_ = (LoopExit.exhausted, index))
    (hscan : ReadNextChunk { r with index_ := index } = (true, r1)) :
    ReadMessage r = ReadMessage { r1 with index_ := 0 } := by
  obtain ⟨_, consumed, c1, _, c3, _⟩ := ReadNextChunk_spec _ _ _ hscan
  obtain ⟨before, messages, c5, _⟩ := c3 rfl
  dsimp only at c1
  have hlen : r1.file_reader_.remaining.length < r.file_reader_.remaining.length := by
    rw [c1, c5]; simp; omega
  have h1 : ReadMessage r =
      ReadMessage.go r.file_reader_.remaining.length { r1 with index_ := 0 } := by
    simp only [ReadMessage, ReadMessage.go, hloop, hscan]
  rw [h1]
  exact (ReadMessage_eq_go _ { r1 with index_ := 0 } hlen).symm

/-! ## Passing over messages, and the depth of the retry -/

theorem ReadMessage.loop_skip (r : RecordReader) (skipped rest : List SingleMessage) (i : Nat)
    (h : ∀ s ∈ skipped, skippable r s) :
    ReadMessage.loop r (skipped ++ rest) i = ReadMessage.loop r rest (i + skipped.length) := by
  induction skipped generalizing i with
  | nil => simp
  | cons s skipped ih =>
    have hs := h s (List.mem_cons_self _ _)
    have ht := ih (i + 1) (fun x hx => h x (List.mem_cons_of_mem _ hx))
    obtain ⟨h1, h2⟩ := hs
    have e : i + (s :: skipped).length = i + 1 + skipped.length := by simp; omega
    rw [e, ← ht]
    simp only [List.cons_append, ReadMessage.loop]
    rw [if_neg (by omega)]
    by_cases h3 : s.time < r.begin_time_
    · rw [if_pos h3]; rfl
    · rw [if_neg h3]
      rcases h2 with h2 | h2
      · exact absurd h2 h3
      · rw [if_pos h2]; rfl

theorem chunkBodyCount_append (a b : List Section) :
    chunkBodyCount (a ++ b) = chunkBodyCount a + chunkBodyCount b := by
  induction a with
  | nil => simp [chunkBodyCount]
  | cons s a ih =>
    cases s with
    | chunkBody body =>
      show chunkBodyCount (a ++ b) + 1 = chunkBodyCount a + 1 + chunkBodyCount b
      rw [ih]; omega
    | _ => exact ih

theorem chunkBodyCount_le_length (a : List Section) : chunkBodyCount a ≤ a.length := by
  induction a with
  | nil => simp [chunkBodyCount]
  | cons s a ih => cases s <;> simp [chunkBodyCount] <;> omega

/-- A successful scan uses up at least one `CHUNK_BODY` section. -/
theorem ReadNextChunk_true_decreases (r r1 : RecordReader) (h : ReadNextChunk r = (true, r1)) :
    r1.file_reader_.remaining.length < r.file_reader_.remaining.length ∧
    chunkBodyCount r1.file_reader_.remaining < chunkBodyCount r.file_reader_.remaining := by
  obtain ⟨_, consumed, c1, _, c3, _⟩ := ReadNextChunk_spec _ _ _ h
  obtain ⟨before, messages, c5, _⟩ := c3 rfl
  rw [c1, c5]
  constructor
  · simp; omega
  · simp only [chunkBodyCount_append, chunkBodyCount]; omega

/-- Any two depth bounds above the number of unread `CHUNK_BODY` sections give
the same result. -/
theorem ReadMessage.go_fuel_bodies (f1 f2 : Nat) (r : RecordReader)
    (h1 : chunkBodyCount r.file_reader_.remaining < f1)
    (h2 : chunkBodyCount r.file_reader_.remaining < f2) :
    ReadMessage.go f1 r = ReadMessage.go f2 r := by
  induction f1 generalizing f2 r with
  | zero => omega
  | succ f1 ih =>
    cases f2 with
    | zero => omega
    | succ f2 =>
      unfold ReadMessage.go
      rcases hl : ReadMessage.loop r (r.chunk_.drop r.index_) r.index_ with ⟨exit, index⟩
      cases exit with
      | returnTrue message => rfl
      | returnFalse => rfl
      | exhausted =>
        dsimp only
        rcases hn : ReadNextChunk { r with index_ := index } with ⟨b, r1⟩
        cases b with
        | false => rfl
        | true =>
          have hdec := (ReadNextChunk_true_decreases _ _ hn).2
          dsimp only at hdec ⊢
          exact ih f2 _ (by dsimp only; omega) (by dsimp only; omega)

theorem ReadMessage.retries_le (fuel : Nat) (r : RecordReader) :
    ReadMessage.retries fuel r ≤ chunkBodyCount r.file_reader_.remaining := by
  induction fuel generalizing r with
  | zero => simp [ReadMessage.retries]
  | succ fuel ih =>
    unfold ReadMessage.retries
    rcases hl : ReadMessage.loop r (r.chunk_.drop r.index_) r.index_ with ⟨exit, index⟩
    cases exit with
    | returnTrue message => simp
    | returnFalse => simp
    | exhausted =>
      dsimp only
      rcases hn : ReadNextChunk { r with index_ := index } with ⟨b, r1⟩
      cases b with
      | false => simp
      | true =>
        have hdec := (ReadNextChunk_true_decreases _ _ hn).2
        have := ih { r1 with index_ := 0 }
        dsimp only at hdec this ⊢
        omega

/-- A reader whose source is exhausted and whose current chunk is used up is
left as it is by a call, which returns end-of-stream. -/
theorem ReadMessage_exhausted (r : RecordReader) (h1 : r.file_reader_.remaining = [])
    (h2 : r.chunk_.length ≤ r.index_) : ReadMessage r = (none, r) := by
  have hd : r.chunk_.drop r.index_ = [] := List.drop_eq_nil_of_le h2
  apply ReadMessage_of_scan_false r r r.index_
  · rw [hd]; rfl
  · unfold ReadNextChunk
    dsimp only
    rw [h1]
    simp only [ReadNextChunk.loop]
    rw [← h1]

theorem readCalls_exhausted (n : Nat) (r : RecordReader) (h1 : r.file_reader_.remaining = [])
    (h2 : r.chunk_.length ≤ r.index_) :
    readCalls n r = (List.replicate n none, r) := by
  induction n with
  | zero => rfl
  | succ n ih =>
    simp only [readCalls, ReadMessage_exhausted r h1 h2, ih, List.replicate_succ]

/-! ## Channel discovery, with arguments -/

theorem channelCalls_append (a b : List Event) :
    channelCalls (a ++ b) = channelCalls a ++ channelCalls b := by
  induction a with
  | nil => rfl
  | cons e a ih => cases e <;> simp [channelCalls, ih]

theorem channelCalls_sectionChannelEvents (secs : List Section) :
    channelCalls (sectionChannelEvents secs) = sectionChannelEvents secs := by
  induction secs with
  | nil => rfl
  | cons s rest ih =>
    cases s with
    | channel b => cases b <;> simp [sectionChannelEvents, channelCalls, ih]
    | _ => simp [sectionChannelEvents, ih]

/-- A property of every `OnNewMessage` of a trace and of the events before it
still holds when events other than `OnNewMessage` are appended. -/
theorem message_split_append {Q : List Event → String → Prop} {tr ev : List Event}
    (h : ∀ earlier c later, tr = earlier ++ Event.newMessage c :: later → Q earlier c)
    (hev : messageEvents ev = []) :
    ∀ earlier c later, tr ++ ev = earlier ++ Event.newMessage c :: later → Q earlier c := by
  intro earlier c later heq
  rcases List.append_eq_append_iff.mp heq with ⟨a1, h1, h2⟩ | ⟨c1, h1, h2⟩
  · rw [h2, messageEvents_append] at hev
    simp [messageEvents] at hev
  · cases c1 with
    | nil =>
      simp only [List.nil_append] at h2
      rw [← h2] at hev
      simp [messageEvents] at hev
    | cons x c1 =>
      simp only [List.cons_append, List.cons.injEq] at h2
      rw [← h2.1] at h1
      exact h earlier c c1 h1

/-- A property of every `OnNewMessage` of a trace and of the events before it
still holds when an `OnNewMessage` that has the property is appended. -/
theorem message_split_snoc {Q : List Event → String → Prop} {tr : List Event} {c0 : String}
    (h : ∀ earlier c later, tr = earlier ++ Event.newMessage c :: later → Q earlier c)
    (hc : Q tr c0) :
    ∀ earlier c later,
      tr ++ [Event.newMessage c0] = earlier ++ Event.newMessage c :: later → Q earlier c := by
  intro earlier c later heq
  rcases List.append_eq_append_iff.mp heq with ⟨a1, h1, h2⟩ | ⟨c2, h1, h2⟩
  · cases a1 with
    | nil =>
      simp only [List.nil_append, List.cons.injEq, Event.newMessage.injEq] at h2
      simp only [List.append_nil] at h1
      rw [h1, ← h2.1]; exact hc
    | cons x a1 =>
      have := congrArg List.length h2
      simp at this
  · cases c2 with
    | nil =>
      simp only [List.nil_append, List.cons.injEq, Event.newMessage.injEq] at h2
      simp only [List.append_nil] at h1
      rw [← h1, h2.1]; exact hc
    | cons x c2 =>
      simp only [List.cons_append, List.cons.injEq] at h2
      rw [← h2.1] at h1
      exact h earlier c c2 h1

theorem ReadMessage.go_channelsDiscovered (secs : List Section) (fuel : Nat)
    (r : RecordReader) (h : ChannelsDiscovered secs r) :
    ChannelsDiscovered secs (ReadMessage.go fuel r).2 := by
  revert h
  refine ReadMessage.go_cases
    (fun r res => ChannelsDiscovered secs r → ChannelsDiscovered secs res.2)
    ?_ ?_ ?_ ?_ ?_ fuel r
  · intro r h; exact h
  · intro r message index hl ⟨consumed, h1, h2, h3, h4⟩
    obtain ⟨skipped, m, rest, e1, _, e3, _, _⟩ := ReadMessage.loop_returnTrue r _ _ _ _ hl
    have hne : r.chunk_.drop r.index_ ≠ [] := by rw [e1]; simp
    obtain ⟨before, hb⟩ := h3.resolve_left hne
    have hm : m ∈ r.chunk_ := by
      apply List.mem_of_mem_drop (n := r.index_)
      rw [e1]; simp
    refine ⟨consumed, h1, by simp [channelCalls_append, channelCalls, h2],
      Or.inr ⟨before, hb⟩, ?_⟩
    apply message_split_snoc h4
    refine ⟨before, r.chunk_, r.file_reader_.remaining, m, ?_, hm, by rw [e3]; rfl, ?_⟩
    · rw [h1, hb]; simp
    · rw [h2, hb, sectionChannelEvents_append]
      simp [sectionChannelEvents]
  · intro r index hl ⟨consumed, h1, h2, h3, h4⟩
    obtain ⟨skipped, m, rest, e1, _, _, _⟩ := ReadMessage.loop_returnFalse r _ _ _ hl
    have hne : r.chunk_.drop r.index_ ≠ [] := by rw [e1]; simp
    exact ⟨consumed, h1, h2, Or.inr (h3.resolve_left hne), h4⟩
  · intro r index r1 hl hn ⟨consumed, h1, h2, _, h4⟩
    obtain ⟨⟨_, _, _, _, f5, _⟩, consumed1, c1, c2, _, c4⟩ := ReadNextChunk_spec _ _ _ hn
    obtain ⟨e1, _⟩ := ReadMessage.loop_exhausted r _ _ _ hl
    dsimp only at c1 c2 c4 f5
    refine ⟨consumed ++ consumed1, by rw [h1, c1, List.append_assoc], ?_, Or.inl ?_, ?_⟩
    · rw [c2, channelCalls_append, h2, channelCalls_sectionChannelEvents,
        sectionChannelEvents_append]
    · rw [c4 rfl, f5]
      apply List.drop_eq_nil_of_le
      simp only [e1, List.length_drop]; omega
    · rw [c2]
      exact message_split_append h4 (messageEvents_sectionChannelEvents _)
  · intro r index r1 res _ hn ih ⟨consumed, h1, h2, _, h4⟩
    obtain ⟨_, consumed1, c1, c2, c3, _⟩ := ReadNextChunk_spec _ _ _ hn
    obtain ⟨before, messages, c5, c6⟩ := c3 rfl
    dsimp only at c1 c2
    apply ih
    refine ⟨consumed ++ consumed1, by rw [h1, c1, List.append_assoc], ?_, Or.inr ?_, ?_⟩
    · show channelCalls r1.trace = _
      rw [c2, channelCalls_append, h2, channelCalls_sectionChannelEvents,
        sectionChannelEvents_append]
    · exact ⟨consumed ++ before, by rw [c5, c6, List.append_assoc]⟩
    · show YieldsAfterChannels secs r1.trace
      rw [c2]
      exact message_split_append h4 (messageEvents_sectionChannelEvents _)

theorem readCalls_channelsDiscovered (secs : List Section) (n : Nat) (r : RecordReader)
    (h : ChannelsDiscovered secs r) : ChannelsDiscovered secs (readCalls n r).2 := by
  induction n generalizing r with
  | zero => exact h
  | succ n ih => exact ih _ (ReadMessage.go_channelsDiscovered secs _ r h)

theorem new_channelsDiscovered (file : RecordFileReader) (b e : Nat) (channels : List String) :
    ChannelsDiscovered file.sections (RecordReader.new file b e channels) := by
  refine ⟨[], by simp [RecordReader.new, RecordFileReader.Reset], rfl,
    Or.inl (by simp [RecordReader.new]), ?_⟩
  intro earlier c later h
  simp [RecordReader.new] at h

/-! ## Readers over related streams -/

theorem ReadMessage.loop_filter_congr (r r1 : RecordReader) (h1 : r.begin_time_ = r1.begin_time_)
    (h2 : r.end_time_ = r1.end_time_) (h3 : r.channels_ = r1.channels_)
    (ms : List SingleMessage) (i : Nat) :
    ReadMessage.loop r ms i = ReadMessage.loop r1 ms i := by
  induction ms generalizing i with
  | nil => rfl
  | cons m ms ih => simp only [ReadMessage.loop, h1, h2, h3, ih]

theorem scanContinues_congr (r r1 : RecordReader) (h1 : r.begin_time_ = r1.begin_time_)
    (h2 : r.end_time_ = r1.end_time_) (secs : List Section) (skip : Bool) :
    scanContinues r secs skip = scanContinues r1 secs skip := by
  induction secs generalizing skip with
  | nil => rfl
  | cons s rest ih =>
    cases s with
    | index n => simpa [scanContinues] using ih skip
    | channel b => cases b <;> simp [scanContinues, ih]
    | chunkHeader b => cases b <;> simp [scanContinues, ih, h1, h2]
    | chunkBody b => simp [scanContinues, ih]
    | other t => simp [scanContinues]

/-- The scan depends on the reader only through the window and the current
chunk: two readers that agree on these get the same result, chunk, trace and
stream position from the same sections. -/
theorem ReadNextChunk.loop_congr (r r1 : RecordReader) (h1 : r.begin_time_ = r1.begin_time_)
    (h2 : r.end_time_ = r1.end_time_) (h3 : r.chunk_ = r1.chunk_)
    (secs : List Section) (skip : Bool) (tr : List Event) :
    (ReadNextChunk.loop r secs skip tr).1 = (ReadNextChunk.loop r1 secs skip tr).1 ∧
    (ReadNextChunk.loop r secs skip tr).2.chunk_ = (ReadNextChunk.loop r1 secs skip tr).2.chunk_ ∧
    (ReadNextChunk.loop r secs skip tr).2.trace = (ReadNextChunk.loop r1 secs skip tr).2.trace ∧
    (ReadNextChunk.loop r secs skip tr).2.file_reader_.remaining =
      (ReadNextChunk.loop r1 secs skip tr).2.file_reader_.remaining := by
  induction secs generalizing skip tr with
  | nil => simp [ReadNextChunk.loop, h3]
  | cons s rest ih =>
    cases s with
    | index n => simpa [ReadNextChunk.loop] using ih skip tr
    | channel b =>
      cases b with
      | none => simp [ReadNextChunk.loop, h3]
      | some c => simpa [ReadNextChunk.loop] using ih skip _
    | chunkHeader b =>
      cases b with
      | none => simp [ReadNextChunk.loop, h3]
      | some h =>
        simp only [ReadNextChunk.loop, ← h1, ← h2]
        split
        · simp [h3]
        · split
          · exact ih true tr
          · exact ih skip tr
    | chunkBody b =>
      simp only [ReadNextChunk.loop]
      split
      · exact ih false tr
      · cases b <;> simp [h3]
    | other t => simp [ReadNextChunk.loop, h3]

/-- Readers that agree on everything but the source still do so after scans
over their own sections, as far as the scan results themselves agree. -/
theorem sameState_loop (r r1 : RecordReader) (h : sameState r r1) (secs secs1 : List Section)
    (skip skip1 : Bool) (tr tr1 : List Event)
    (hc : (ReadNextChunk.loop r secs skip tr).2.chunk_ =
      (ReadNextChunk.loop r1 secs1 skip1 tr1).2.chunk_)
    (ht : (ReadNextChunk.loop r secs skip tr).2.trace =
      (ReadNextChunk.loop r1 secs1 skip1 tr1).2.trace) :
    sameState (ReadNextChunk.loop r secs skip tr).2 (ReadNextChunk.loop r1 secs1 skip1 tr1).2 := by
  obtain ⟨a1, a2, a3, a4, a5, _, _⟩ := ReadNextChunk.loop_frame r secs skip tr
  obtain ⟨b1, b2, b3, b4, b5, _, _⟩ := ReadNextChunk.loop_frame r1 secs1 skip1 tr1
  obtain ⟨s1, s2, s3, s4, _, s6, _⟩ := h
  exact ⟨by rw [a1, b1, s1], by rw [a2, b2, s2], by rw [a3, b3, s3], by rw [a4, b4, s4], hc,
    by rw [a5, b5, s6], ht⟩

/-- Two runs of `ReadMessage` from related readers give the same result and
related readers, for any relation that implies `sameState`, survives cursor
and trace updates, and is kept by `ReadNextChunk` with equal results. -/
theorem ReadMessage.go_related (R : RecordReader → RecordReader → Prop)
    (hsame : ∀ r r1, R r r1 → sameState r r1)
    (hidx : ∀ r r1 i, R r r1 → R { r with index_ := i } { r1 with index_ := i })
    (hmsg : ∀ r r1 i ev, R r r1 →
      R { r with index_ := i, trace := r.trace ++ ev }
        { r1 with index_ := i, trace := r1.trace ++ ev })
    (hscan : ∀ r r1, R r r1 →
      (ReadNextChunk r).1 = (ReadNextChunk r1).1 ∧ R (ReadNextChunk r).2 (ReadNextChunk r1).2)
    (f1 f2 : Nat) (r r1 : RecordReader)
    (h1 : r.file_reader_.remaining.length < f1) (h2 : r1.file_reader_.remaining.length < f2)
    (h : R r r1) :
    (ReadMessage.go f1 r).1 = (ReadMessage.go f2 r1).1 ∧
    R (ReadMessage.go f1 r).2 (ReadMessage.go f2 r1).2 := by
  induction f1 generalizing f2 r r1 with
  | zero => omega
  | succ f1 ih =>
    cases f2 with
    | zero => omega
    | succ f2 =>
      obtain ⟨s1, s2, s3, _, s5, s6, _⟩ := hsame r r1 h
      have hloop : ReadMessage.loop r1 (r1.chunk_.drop r1.index_) r1.index_ =
          ReadMessage.loop r (r.chunk_.drop r.index_) r.index_ := by
        rw [← s5, ← s6]
        exact (ReadMessage.loop_filter_congr r r1 s1 s2 s3 _ _).symm
      unfold ReadMessage.go
      rw [hloop]
      rcases hl : ReadMessage.loop r (r.chunk_.drop r.index_) r.index_ with ⟨exit, index⟩
      cases exit with
      | returnTrue message => exact ⟨rfl, hmsg r r1 index _ h⟩
      | returnFalse => exact ⟨rfl, hidx r r1 index h⟩
      | exhausted =>
        dsimp only
        obtain ⟨e1, e2⟩ := hscan _ _ (hidx r r1 index h)
        rcases hn : ReadNextChunk { r with index_ := index } with ⟨b, r2⟩
        rcases hn1 : ReadNextChunk { r1 with index_ := index } with ⟨b1, r3⟩
        rw [hn, hn1] at e1 e2
        dsimp only at e1 e2
        subst e1
        cases b with
        | false => exact ⟨rfl, e2⟩
        | true =>
          have d1 := (ReadNextChunk_true_decreases _ _ hn).1
          have d2 := (ReadNextChunk_true_decreases _ _ hn1).1
          dsimp only at d1 d2 ⊢
          exact ih f2 _ _ (by dsimp only; omega) (by dsimp only; omega) (hidx r2 r3 0 e2)

theorem readCalls_related (R : RecordReader → RecordReader → Prop)
    (hsame : ∀ r r1, R r r1 → sameState r r1)
    (hidx : ∀ r r1 i, R r r1 → R { r with index_ := i } { r1 with index_ := i })
    (hmsg : ∀ r r1 i ev, R r r1 →
      R { r with index_ := i, trace := r.trace ++ ev }
        { r1 with index_ := i, trace := r1.trace ++ ev })
    (hscan : ∀ r r1, R r r1 →
      (ReadNextChunk r).1 = (ReadNextChunk r1).1 ∧ R (ReadNextChunk r).2 (ReadNextChunk r1).2)
    (n : Nat) (r r1 : RecordReader) (h : R r r1) :
    (readCalls n r).1 = (readCalls n r1).1 ∧ R (readCalls n r).2 (readCalls n r1).2 := by
  induction n generalizing r r1 with
  | zero => exact ⟨rfl, h⟩
  | succ n ih =>
    obtain ⟨e1, e2⟩ := ReadMessage.go_related R hsame hidx hmsg hscan
      (r.file_reader_.remaining.length + 1) (r1.file_reader_.remaining.length + 1) r r1
      (Nat.lt_succ_self _) (Nat.lt_succ_self _) h
    obtain ⟨e3, e4⟩ := ih _ _ e2
    have e5 : (ReadMessage r).1 = (ReadMessage r1).1 := e1
    have e6 : (readCalls n (ReadMessage r).2).1 = (readCalls n (ReadMessage r1).2).1 := e3
    simp only [readCalls]
    exact ⟨by rw [e5, e6], e4⟩

/-! ## `INDEX` sections -/

theorem dropIndex_append (a b : List Section) :
    dropIndex (a ++ b) = dropIndex a ++ dropIndex b := by
  induction a with
  | nil => rfl
  | cons s a ih => cases s <;> simp [dropIndex, ih]

/-- A scan gives the same result, chunk and trace on a stream and on the stream
without its `INDEX` sections, and ends at corresponding positions. -/
theorem ReadNextChunk.loop_dropIndex (r : RecordReader) (secs : List Section) (skip : Bool)
    (tr : List Event) :
    (ReadNextChunk.loop r secs skip tr).1 = (ReadNextChunk.loop r (dropIndex secs) skip tr).1 ∧
    (ReadNextChunk.loop r secs skip tr).2.chunk_ =
      (ReadNextChunk.loop r (dropIndex secs) skip tr).2.chunk_ ∧
    (ReadNextChunk.loop r secs skip tr).2.trace =
      (ReadNextChunk.loop r (dropIndex secs) skip tr).2.trace ∧
    dropIndex (ReadNextChunk.loop r secs skip tr).2.file_reader_.remaining =
      (ReadNextChunk.loop r (dropIndex secs) skip tr).2.file_reader_.remaining := by
  induction secs generalizing skip tr with
  | nil => simp [ReadNextChunk.loop, dropIndex]
  | cons s rest ih =>
    cases s with
    | index n => simpa [ReadNextChunk.loop, dropIndex] using ih skip tr
    | channel b =>
      cases b with
      | none => simp [ReadNextChunk.loop, dropIndex]
      | some c => simpa [ReadNextChunk.loop, dropIndex] using ih skip _
    | chunkHeader b =>
      cases b with
      | none => simp [ReadNextChunk.loop, dropIndex]
      | some h =>
        simp only [ReadNextChunk.loop, dropIndex]
        split
        · simp
        · split
          · exact ih true tr
          · exact ih skip tr
    | chunkBody b =>
      simp only [ReadNextChunk.loop, dropIndex]
      split
      · exact ih false tr
      · cases b <;> simp
    | other t => simp [ReadNextChunk.loop, dropIndex]

theorem IndexRelated_scan (r r1 : RecordReader) (h : IndexRelated r r1) :
    (ReadNextChunk r).1 = (ReadNextChunk r1).1 ∧
    IndexRelated (ReadNextChunk r).2 (ReadNextChunk r1).2 := by
  obtain ⟨hs, hd⟩ := h
  have ⟨s1, s2, _, _, s5, _, s7⟩ := hs
  obtain ⟨a1, a2, a3, a4⟩ :=
    ReadNextChunk.loop_dropIndex r r.file_reader_.remaining false r.trace
  obtain ⟨b1, b2, b3, b4⟩ :=
    ReadNextChunk.loop_dropIndex r1 r1.file_reader_.remaining false r1.trace
  obtain ⟨c1, c2, c3, c4⟩ :=
    ReadNextChunk.loop_congr r r1 s1 s2 s5 (dropIndex r.file_reader_.remaining) false r.trace
  rw [hd, s7] at c1 c2 c3 c4
  unfold ReadNextChunk
  refine ⟨by rw [a1, b1, hd, s7]; exact c1, ?_, ?_⟩
  · apply sameState_loop r r1 hs
    · rw [a2, b2, hd, s7]; exact c2
    · rw [a3, b3, hd, s7]; exact c3
  · rw [a4, b4, hd, s7]; exact c4

theorem IndexRelated_calls (n : Nat) (r r1 : RecordReader) (h : IndexRelated r r1) :
    (readCalls n r).1 = (readCalls n r1).1 ∧
    IndexRelated (readCalls n r).2 (readCalls n r1).2 := by
  refine readCalls_related IndexRelated (fun _ _ h => h.1) ?_ ?_ IndexRelated_scan n r r1 h
  · intro r r1 i ⟨⟨s1, s2, s3, s4, s5, _, s7⟩, hd⟩
    exact ⟨⟨s1, s2, s3, s4, s5, rfl, s7⟩, hd⟩
  · intro r r1 i ev ⟨⟨s1, s2, s3, s4, s5, _, s7⟩, hd⟩
    exact ⟨⟨s1, s2, s3, s4, s5, rfl, by show r.trace ++ ev = r1.trace ++ ev; rw [s7]⟩, hd⟩

/-! ## A chunk that lies after the window -/

/-- With a well-formed window that ends before a chunk header begins, the scan
passes over the header and the chunk body that directly follows it, whatever
that body holds. -/
theorem ReadNextChunk.loop_skip_pair (r : RecordReader) (header : ChunkHeader)
    (body : Option (List SingleMessage)) (rest : List Section) (skip : Bool) (tr : List Event)
    (hwin : r.begin_time_ ≤ r.end_time_) (hspan : header.begin_time ≤ header.end_time)
    (hafter : r.end_time_ < header.begin_time) :
    ReadNextChunk.loop r
        (Section.chunkHeader (some header) :: Section.chunkBody body :: rest) skip tr =
      ReadNextChunk.loop r rest false tr := by
  have h1 : ¬ r.begin_time_ > header.end_time := by omega
  simp [ReadNextChunk.loop, h1, hafter]

theorem ReadNextChunk.loop_skipped_body (r r1 : RecordReader) (header : ChunkHeader)
    (body body1 : Option (List SingleMessage)) (after : List Section)
    (h1 : r.begin_time_ = r1.begin_time_) (h2 : r.end_time_ = r1.end_time_)
    (h3 : r.chunk_ = r1.chunk_)
    (hwin : r.begin_time_ ≤ r.end_time_) (hspan : header.begin_time ≤ header.end_time)
    (hafter : r.end_time_ < header.begin_time)
    (before : List Section) (skip : Bool) (tr : List Event) :
    (ReadNextChunk.loop r
        (before ++ Section.chunkHeader (some header) :: Section.chunkBody body :: after)
        skip tr).1 =
      (ReadNextChunk.loop r1
        (before ++ Section.chunkHeader (some header) :: Section.chunkBody body1 :: after)
        skip tr).1 ∧
    (ReadNextChunk.loop r
        (before ++ Section.chunkHeader (some header) :: Section.chunkBody body :: after)
        skip tr).2.chunk_ =
      (ReadNextChunk.loop r1
        (before ++ Section.chunkHeader (some header) :: Section.chunkBody body1 :: after)
        skip tr).2.chunk_ ∧
    (ReadNextChunk.loop r
        (before ++ Section.chunkHeader (some header) :: Section.chunkBody body :: after)
        skip tr).2.trace =
      (ReadNextChunk.loop r1
        (before ++ Section.chunkHeader (some header) :: Section.chunkBody body1 :: after)
        skip tr).2.trace ∧
    ((∃ before1,
        (ReadNextChunk.loop r
          (before ++ Section.chunkHeader (some header) :: Section.chunkBody body :: after)
          skip tr).2.file_reader_.remaining =
          before1 ++ Section.chunkHeader (some header) :: Section.chunkBody body :: after ∧
        (ReadNextChunk.loop r1
          (before ++ Section.chunkHeader (some header) :: Section.chunkBody body1 :: after)
          skip tr).2.file_reader_.remaining =
          before1 ++ Section.chunkHeader (some header) :: Section.chunkBody body1 :: after) ∨
      (ReadNextChunk.loop r
        (before ++ Section.chunkHeader (some header) :: Section.chunkBody body :: after)
        skip tr).2.file_reader_.remaining =
      (ReadNextChunk.loop r1
        (before ++ Section.chunkHeader (some header) :: Section.chunkBody body1 :: after)
        skip tr).2.file_reader_.remaining) := by
  induction before generalizing skip tr with
  | nil =>
    simp only [List.nil_append]
    rw [ReadNextChunk.loop_skip_pair r header body after skip tr hwin hspan hafter,
      ReadNextChunk.loop_skip_pair r1 header body1 after skip tr (by omega) hspan (by omega)]
    obtain ⟨c1, c2, c3, c4⟩ := ReadNextChunk.loop_congr r r1 h1 h2 h3 after false tr
    exact ⟨c1, c2, c3, Or.inr c4⟩
  | cons s before ih =>
    cases s with
    | index n => simpa [ReadNextChunk.loop] using ih skip tr
    | channel b =>
      cases b with
      | none =>
        simp only [List.cons_append, ReadNextChunk.loop]
        exact ⟨trivial, h3, trivial, Or.inl ⟨before, rfl, rfl⟩⟩
      | some c => simpa [ReadNextChunk.loop] using ih skip _
    | chunkHeader b =>
      cases b with
      | none =>
        simp only [List.cons_append, ReadNextChunk.loop]
        exact ⟨trivial, h3, trivial, Or.inl ⟨before, rfl, rfl⟩⟩
      | some h =>
        simp only [List.cons_append, ReadNextChunk.loop, ← h1, ← h2]
        split
        · exact ⟨rfl, h3, rfl, Or.inl ⟨before, rfl, rfl⟩⟩
        · split
          · exact ih true tr
          · exact ih skip tr
    | chunkBody b =>
      simp only [List.cons_append, ReadNextChunk.loop]
      split
      · exact ih false tr
      · cases b with
        | none => exact ⟨rfl, h3, rfl, Or.inl ⟨before, rfl, rfl⟩⟩
        | some ms => exact ⟨rfl, rfl, rfl, Or.inl ⟨before, rfl, rfl⟩⟩
    | other t =>
      simp only [List.cons_append, ReadNextChunk.loop]
      exact ⟨trivial, h3, trivial, Or.inl ⟨before, rfl, rfl⟩⟩

theorem SkippedBodyRelated_scan (header : ChunkHeader) (after : List Section)
    (r r1 : RecordReader) (h : SkippedBodyRelated header after r r1) :
    (ReadNextChunk r).1 = (ReadNextChunk r1).1 ∧
    SkippedBodyRelated header after (ReadNextChunk r).2 (ReadNextChunk r1).2 := by
  obtain ⟨hs, hwin, hspan, hafter, hrel⟩ := h
  have ⟨s1, s2, _, _, s5, _, s7⟩ := hs
  obtain ⟨f1, f2, _⟩ := ReadNextChunk.loop_frame r r.file_reader_.remaining false r.trace
  unfold ReadNextChunk
  rcases hrel with ⟨before, body, body1, e1, e2⟩ | e
  · obtain ⟨c1, c2, c3, c4⟩ := ReadNextChunk.loop_skipped_body r r1 header body body1 after
      s1 s2 s5 hwin hspan hafter before false r.trace
    rw [e1, e2, ← s7]
    refine ⟨c1, sameState_loop r r1 hs _ _ _ _ _ _ c2 c3, ?_, hspan, ?_, ?_⟩
    · rw [← e1, f1, f2]; exact hwin
    · rw [← e1, f2]; exact hafter
    · rcases c4 with ⟨before1, d1, d2⟩ | d
      · exact Or.inl ⟨before1, body, body1, d1, d2⟩
      · exact Or.inr d
  · obtain ⟨c1, c2, c3, c4⟩ :=
      ReadNextChunk.loop_congr r r1 s1 s2 s5 r.file_reader_.remaining false r.trace
    rw [← e, ← s7]
    refine ⟨c1, sameState_loop r r1 hs _ _ _ _ _ _ c2 c3, ?_, hspan, ?_, Or.inr c4⟩
    · rw [f1, f2]; exact hwin
    · rw [f2]; exact hafter

theorem SkippedBodyRelated_calls (header : ChunkHeader) (after : List Section) (n : Nat)
    (r r1 : RecordReader) (h : SkippedBodyRelated header after r r1) :
    (readCalls n r).1 = (readCalls n r1).1 ∧
    SkippedBodyRelated header after (readCalls n r).2 (readCalls n r1).2 := by
  refine readCalls_related (SkippedBodyRelated header after) (fun _ _ h => h.1) ?_ ?_
    (SkippedBodyRelated_scan header after) n r r1 h
  · intro r r1 i ⟨⟨s1, s2, s3, s4, s5, _, s7⟩, hw⟩
    exact ⟨⟨s1, s2, s3, s4, s5, rfl, s7⟩, hw⟩
  · intro r r1 i ev ⟨⟨s1, s2, s3, s4, s5, _, s7⟩, hw⟩
    exact ⟨⟨s1, s2, s3, s4, s5, rfl, by show r.trace ++ ev = r1.trace ++ ev; rw [s7]⟩, hw⟩

/-! ## Reading a file over its full range -/

/-- Induction along the run of one `ReadMessage` call. -/
theorem ReadMessage.call_cases (P : RecordReader → Option RecordMessage × RecordReader → Prop)
    (retTrue : ∀ r message index,
      ReadMessage.loop r (r.chunk_.drop r.index_) r.index_ = (LoopExit.returnTrue message, index) →
      P r (some message, { r with index_ := index,
                                  trace := r.trace ++ [Event.newMessage message.channel_name] }))
    (retFalse : ∀ r index,
      ReadMessage.loop r (r.chunk_.drop r.index_) r.index_ = (LoopExit.returnFalse, index) →
      P r (none, { r with index_ := index }))
    (scanFalse : ∀ r index r1,
      ReadMessage.loop r (r.chunk_.drop r.index_) r.index_ = (LoopExit.exhausted, index) →
      ReadNextChunk { r with index_ := index } = (false, r1) → P r (none, r1))
    (retry : ∀ r index r1 res,
      ReadMessage.loop r (r.chunk_.drop r.index_) r.index_ = (LoopExit.exhausted, index) →
      ReadNextChunk { r with index_ := index } = (true, r1) →
      P { r1 with index_ := 0 } res → P r res)
    (r : RecordReader) : P r (ReadMessage r) := by
  have main : ∀ (fuel : Nat) (r : RecordReader), r.file_reader_.remaining.length < fuel →
      P r (ReadMessage.go fuel r) := by
    intro fuel
    induction fuel with
    | zero => intro r h; omega
    | succ fuel ih =>
      intro r h
      unfold ReadMessage.go
      rcases hl : ReadMessage.loop r (r.chunk_.drop r.index_) r.index_ with ⟨exit, index⟩
      cases exit with
      | returnTrue message => exact retTrue r message index hl
      | returnFalse => exact retFalse r index hl
      | exhausted =>
        dsimp only
        rcases hn : ReadNextChunk { r with index_ := index } with ⟨b, r1⟩
        cases b with
        | true =>
          have hd := (ReadNextChunk_true_decreases _ _ hn).1
          dsimp only at hd
          exact retry r index r1 _ hl hn (ih { r1 with index_ := 0 } (by dsimp only; omega))
        | false => exact scanFalse r index r1 hl hn
  exact main _ r (Nat.lt_succ_self _)

theorem passing_append (channels : List String) (a b : List SingleMessage) :
    passing channels (a ++ b) = passing channels a ++ passing channels b := by
  simp [passing]

theorem passing_eq_nil (r : RecordReader) (ms : List SingleMessage)
    (hw : ∀ s ∈ ms, r.begin_time_ ≤ s.time ∧ s.time ≤ r.end_time_)
    (hn : ∀ s ∈ ms, ¬ matchesReader r s.toRecord) : passing r.channels_ ms = [] := by
  simp only [passing, List.filter_eq_nil_iff, List.mem_map, decide_eq_true_eq]
  rintro m ⟨s, hs, rfl⟩ hp
  exact hn s hs ⟨(hw s hs).1, (hw s hs).2, hp⟩

/-- Over sections that all decode and lie inside the window, a scan that starts
unmarked loads the first chunk body and passes over no message, and fails only
at the end of a stream that holds no further message. -/
theorem ReadNextChunk.loop_within (r : RecordReader) (secs : List Section) (tr : List Event)
    (h : secs.all (sectionWithin r.begin_time_ r.end_time_) = true) :
    ((ReadNextChunk.loop r secs false tr).1 = true →
      allMessages secs = (ReadNextChunk.loop r secs false tr).2.chunk_ ++
        allMessages (ReadNextChunk.loop r secs false tr).2.file_reader_.remaining ∧
      (∀ m ∈ (ReadNextChunk.loop r secs false tr).2.chunk_,
        r.begin_time_ ≤ m.time ∧ m.time ≤ r.end_time_) ∧
      (ReadNextChunk.loop r secs false tr).2.file_reader_.remaining.all
        (sectionWithin r.begin_time_ r.end_time_) = true) ∧
    ((ReadNextChunk.loop r secs false tr).1 = false →
      allMessages secs = [] ∧
      (ReadNextChunk.loop r secs false tr).2.file_reader_.remaining = []) := by
  induction secs generalizing tr with
  | nil => simp [ReadNextChunk.loop, allMessages]
  | cons s rest ih =>
    simp only [List.all_cons, Bool.and_eq_true] at h
    obtain ⟨hs, hrest⟩ := h
    cases s with
    | index n => simpa [ReadNextChunk.loop, allMessages] using ih tr hrest
    | channel b =>
      cases b with
      | none => simp [sectionWithin] at hs
      | some c => simpa [ReadNextChunk.loop, allMessages] using ih _ hrest
    | chunkHeader b =>
      cases b with
      | none => simp [sectionWithin] at hs
      | some header =>
        simp only [sectionWithin, Bool.and_eq_true, decide_eq_true_eq] at hs
        have c1 : ¬ r.begin_time_ > header.end_time := by omega
        have c2 : ¬ r.end_time_ < header.begin_time := by omega
        simpa [ReadNextChunk.loop, allMessages, c1, c2] using ih tr hrest
    | chunkBody b =>
      cases b with
      | none => simp [sectionWithin] at hs
      | some messages =>
        simp only [sectionWithin, List.all_eq_true, Bool.and_eq_true, decide_eq_true_eq] at hs
        simp only [ReadNextChunk.loop, allMessages]
        exact ⟨fun _ => ⟨rfl, hs, hrest⟩, fun hf => by simp at hf⟩
    | other t => simp [sectionWithin] at hs

/-- One call on a reader whose window covers everything ahead: it yields the
first message ahead that passes the filter, and returns end-of-stream only
when none does. -/
theorem ReadMessage_complete (r : RecordReader) (h : FullRange r) :
    FullRange (ReadMessage r).2 ∧ (ReadMessage r).2.channels_ = r.channels_ ∧
    ((ReadMessage r).1 = none → passing r.channels_ (pending r) = []) ∧
    (∀ m, (ReadMessage r).1 = some m →
      passing r.channels_ (pending r) = m :: passing r.channels_ (pending (ReadMessage r).2)) := by
  revert h
  refine ReadMessage.call_cases
    (fun r res => FullRange r →
      FullRange res.2 ∧ res.2.channels_ = r.channels_ ∧
      (res.1 = none → passing r.channels_ (pending r) = []) ∧
      (∀ m, res.1 = some m →
        passing r.channels_ (pending r) = m :: passing r.channels_ (pending res.2)))
    ?_ ?_ ?_ ?_ r
  · intro r message index hl ⟨hc, hr⟩
    obtain ⟨skipped, m, rest, e1, e2, e3, e4, e5⟩ := ReadMessage.loop_returnTrue r _ _ _ _ hl
    have hd : r.chunk_.drop index = rest := by
      have := drop_of_drop_eq (a := skipped ++ [m]) (b := rest) (by simpa using e1)
      rw [e2]; simpa [Nat.add_assoc] using this
    have hsk : passing r.channels_ skipped = [] := by
      apply passing_eq_nil r skipped
      · intro s hs
        exact hc s (List.mem_of_mem_drop (n := r.index_) (by rw [e1]; simp [hs]))
      · intro s hs; exact (e5 s hs).2
    refine ⟨⟨hc, hr⟩, rfl, by intro hn; simp at hn, ?_⟩
    intro m1 hm1
    simp only [Option.some.injEq] at hm1
    subst hm1
    have hp : passesFilter r.channels_ m.toRecord := by rw [← e3]; exact e4.2.2
    simp only [pending, hd, e1, List.append_assoc, passing_append, hsk, List.nil_append]
    rw [show m :: rest = [m] ++ rest from rfl, passing_append]
    simp [passing, hp, e3]
  · intro r index hl ⟨hc, _⟩
    obtain ⟨skipped, m, rest, e1, _, e3, _⟩ := ReadMessage.loop_returnFalse r _ _ _ hl
    have hm : m ∈ r.chunk_ := List.mem_of_mem_drop (n := r.index_) (by rw [e1]; simp)
    have := (hc m hm).2
    omega
  · intro r index r1 hl hn ⟨hc, hr⟩
    obtain ⟨e1, e2⟩ := ReadMessage.loop_exhausted r _ _ _ hl
    obtain ⟨⟨f1, f2, f3, _⟩, _, _, _, _, c4⟩ := ReadNextChunk_spec _ _ _ hn
    have hw := (ReadNextChunk.loop_within { r with index_ := index } r.file_reader_.remaining
      r.trace hr).2
    have hn1 : ReadNextChunk.loop { r with index_ := index } r.file_reader_.remaining false
        r.trace = (false, r1) := hn
    rw [hn1] at hw
    obtain ⟨w1, w2⟩ := hw rfl
    dsimp only at f1 f2 f3 c4
    have hdrop : passing r.channels_ (r.chunk_.drop r.index_) = [] := by
      apply passing_eq_nil r
      · intro s hs; exact hc s (List.mem_of_mem_drop hs)
      · intro s hs; exact (e2 s hs).2
    refine ⟨⟨?_, ?_⟩, f3, ?_, by intro m hm; simp at hm⟩
    · intro m hm
      rw [c4 rfl] at hm
      rw [f1, f2]; exact hc m hm
    · rw [w2]; rfl
    · intro _
      simp only [pending, passing_append, hdrop, w1, List.nil_append]
      rfl
  · intro r index r1 res hl hn ih ⟨hc, hr⟩
    obtain ⟨e1, e2⟩ := ReadMessage.loop_exhausted r _ _ _ hl
    obtain ⟨⟨f1, f2, f3, _⟩, _⟩ := ReadNextChunk_spec _ _ _ hn
    have hw := (ReadNextChunk.loop_within { r with index_ := index } r.file_reader_.remaining
      r.trace hr).1
    have hn1 : ReadNextChunk.loop { r with index_ := index } r.file_reader_.remaining false
        r.trace = (true, r1) := hn
    rw [hn1] at hw
    obtain ⟨w1, w2, w3⟩ := hw rfl
    dsimp only at f1 f2 f3 w1 w2 w3
    have hdrop : passing r.channels_ (r.chunk_.drop r.index_) = [] := by
      apply passing_eq_nil r
      · intro s hs; exact hc s (List.mem_of_mem_drop hs)
      · intro s hs; exact (e2 s hs).2
    have hfull : FullRange { r1 with index_ := 0 } := by
      refine ⟨?_, ?_⟩
      · intro m hm
        show r1.begin_time_ ≤ m.time ∧ m.time ≤ r1.end_time_
        rw [f1, f2]; exact w2 m hm
      · show r1.file_reader_.remaining.all (sectionWithin r1.begin_time_ r1.end_time_) = true
        rw [f1, f2]; exact w3
    obtain ⟨i1, i2, i3, i4⟩ := ih hfull
    have hpend : passing r.channels_ (pending r) =
        passing r.channels_ (pending { r1 with index_ := 0 }) := by
      simp only [pending, passing_append, hdrop, w1, List.nil_append, List.drop_zero]
    have hch : ({ r1 with index_ := 0 } : RecordReader).channels_ = r.channels_ := f3
    rw [hch] at i2 i3 i4
    refine ⟨i1, i2, ?_, ?_⟩
    · intro hnone; rw [hpend]; exact i3 hnone
    · intro m hm; rw [hpend]; exact i4 m hm

/-- Reading up to the first end-of-stream on a reader whose window covers
everything ahead yields exactly the messages ahead that pass the filter. -/
theorem readUntilEnd_complete (n : Nat) (r : RecordReader) (h : FullRange r)
    (hn : (pending r).length < n) :
    readUntilEnd n r = passing r.channels_ (pending r) := by
  induction n generalizing r with
  | zero => omega
  | succ n ih =>
    obtain ⟨c1, c2, c3, c4⟩ := ReadMessage_complete r h
    have hsub := ReadMessage.go_sublist (r.file_reader_.remaining.length + 1) r
    unfold readUntilEnd
    rcases hres : ReadMessage r with ⟨out, r1⟩
    rw [hres] at c1 c2 c3 c4
    have hsub1 : (out.toList ++ (pending r1).map SingleMessage.toRecord).Sublist
        ((pending r).map SingleMessage.toRecord) := by
      have : ReadMessage.go (r.file_reader_.remaining.length + 1) r = (out, r1) := hres
      rw [this] at hsub
      exact hsub
    cases out with
    | none => exact (c3 rfl).symm
    | some m =>
      dsimp only at c1 c2 c4 ⊢
      have hlen := hsub1.length_le
      simp only [Option.toList, List.length_append, List.length_cons, List.length_nil,
        List.length_map] at hlen
      rw [c4 m rfl, ih r1 c1 (by omega), c2]

/-! ## The retry on a bounded call stack -/

/-- With room for more invocations than there are unread `CHUNK_BODY` sections
the call stack does not run out. -/
theorem ReadMessage.onStack_of_room (frames : Nat) (r : RecordReader)
    (h : chunkBodyCount r.file_reader_.remaining < frames) :
    ReadMessage.onStack frames r = some (ReadMessage.go frames r) := by
  induction frames generalizing r with
  | zero => omega
  | succ frames ih =>
    unfold ReadMessage.onStack ReadMessage.go
    rcases hl : ReadMessage.loop r (r.chunk_.drop r.index_) r.index_ with ⟨exit, index⟩
    cases exit with
    | returnTrue message => rfl
    | returnFalse => rfl
    | exhausted =>
      dsimp only
      rcases hn : ReadNextChunk { r with index_ := index } with ⟨b, r1⟩
      cases b with
      | false => rfl
      | true =>
        have hdec := (ReadNextChunk_true_decreases _ _ hn).2
        dsimp only at hdec ⊢
        exact ih _ (by dsimp only; omega)

/-- A result obtained on a bounded call stack is the result at every larger
depth bound of `ReadMessage.go`. -/
theorem ReadMessage.onStack_some_go (frames : Nat) (r : RecordReader)
    (res : Option RecordMessage × RecordReader)
    (h : ReadMessage.onStack frames r = some res) (fuel : Nat) (hf : frames ≤ fuel) :
    ReadMessage.go fuel r = res := by
  induction frames generalizing r fuel with
  | zero => simp [ReadMessage.onStack] at h
  | succ frames ih =>
    cases fuel with
    | zero => omega
    | succ fuel =>
      unfold ReadMessage.onStack at h
      unfold ReadMessage.go
      rcases hl : ReadMessage.loop r (r.chunk_.drop r.index_) r.index_ with ⟨exit, index⟩
      rw [hl] at h
      cases exit with
      | returnTrue message => simpa using h
      | returnFalse => simpa using h
      | exhausted =>
        dsimp only at h ⊢
        rcases hn : ReadNextChunk { r with index_ := index } with ⟨b, r1⟩
        rw [hn] at h
        cases b with
        | false => simpa using h
        | true =>
          dsimp only at h ⊢
          exact ih _ h fuel (by omega)

/-- A result obtained on a bounded call stack is the result of `ReadMessage`. -/
theorem ReadMessage.onStack_some (frames : Nat) (r : RecordReader)
    (res : Option RecordMessage × RecordReader)
    (h : ReadMessage.onStack frames r = some res) : res = ReadMessage r := by
  have h1 := ReadMessage.onStack_some_go frames r res h
    (max frames (r.file_reader_.remaining.length + 1)) (Nat.le_max_left _ _)
  rw [← h1]
  exact (ReadMessage_eq_go _ r (by omega)).symm

/-- On a run of `k` chunks none of which holds a matching message, a call whose
message loop runs off the current chunk nests `k` self-invocations: a call
stack with room for `k` invocations runs out. -/
theorem ReadMessage.onStack_sparse (k frames : Nat) (r : RecordReader)
    (h1 : r.begin_time_ = 0) (h2 : r.end_time_ = 100) (h3 : r.channels_ = ["imu"])
    (h4 : ∀ m ∈ r.chunk_, skippable r m)
    (h5 : r.file_reader_.remaining = sparseSections k) :
    (frames ≤ k → ReadMessage.onStack frames r = none) ∧
    (k < frames → ReadMessage.retries frames r = k) ∧
    (k < frames → ∃ r1, ReadMessage.onStack frames r = some (none, r1)) := by
  induction k generalizing frames r with
  | zero =>
    cases frames with
    | zero => exact ⟨fun _ => rfl, fun h => by omega, fun h => by omega⟩
    | succ frames =>
      have hl : ReadMessage.loop r (r.chunk_.drop r.index_) r.index_ =
          (LoopExit.exhausted, r.index_ + (r.chunk_.drop r.index_).length) := by
        have := ReadMessage.loop_skip r (r.chunk_.drop r.index_) [] r.index_
          (fun s hs => h4 s (List.mem_of_mem_drop hs))
        simpa [ReadMessage.loop] using this
      refine ⟨fun h => by omega, fun _ => ?_, fun _ => ?_⟩
      · simp [ReadMessage.retries, hl, ReadNextChunk, h5, sparseSections, ReadNextChunk.loop]
      · simp [ReadMessage.onStack, hl, ReadNextChunk, h5, sparseSections, ReadNextChunk.loop]
  | succ k ih =>
    cases frames with
    | zero => exact ⟨fun _ => rfl, fun h => by omega, fun h => by omega⟩
    | succ frames =>
      have hl : ReadMessage.loop r (r.chunk_.drop r.index_) r.index_ =
          (LoopExit.exhausted, r.index_ + (r.chunk_.drop r.index_).length) := by
        have := ReadMessage.loop_skip r (r.chunk_.drop r.index_) [] r.index_
          (fun s hs => h4 s (List.mem_of_mem_drop hs))
        simpa [ReadMessage.loop] using this
      have hn : ReadNextChunk { r with index_ := r.index_ + (r.chunk_.drop r.index_).length } =
          (true, { r with index_ := r.index_ + (r.chunk_.drop r.index_).length,
                          chunk_ := [{ channel_name := "camera", content := "c", time := 1 }],
                          file_reader_ := { r.file_reader_ with remaining := sparseSections k } })
          := by
        simp [ReadNextChunk, h5, sparseSections, ReadNextChunk.loop, h1, h2]
      obtain ⟨i1, i2, i3⟩ := ih frames
        { r with index_ := 0,
                 chunk_ := [{ channel_name := "camera", content := "c", time := 1 }],
                 file_reader_ := { r.file_reader_ with remaining := sparseSections k } }
        h1 h2 h3
        (by
          intro m hm
          simp only [List.mem_singleton] at hm
          subst hm
          simp [skippable, h2, h3])
        rfl
      refine ⟨?_, ?_, ?_⟩
      · intro hf
        simp only [ReadMessage.onStack, hl, hn]
        exact i1 (by omega)
      · intro hf
        simp only [ReadMessage.retries, hl, hn]
        rw [i2 (by omega)]
      · intro hf
        simp only [ReadMessage.onStack, hl, hn]
        exact i3 (by omega)

theorem new_sparseFile (k : Nat) :
    (RecordReader.new (sparseFile k) 0 100 ["imu"]).begin_time_ = 0 ∧
    (RecordReader.new (sparseFile k) 0 100 ["imu"]).end_time_ = 100 ∧
    (RecordReader.new (sparseFile k) 0 100 ["imu"]).channels_ = ["imu"] ∧
    (∀ m ∈ (RecordReader.new (sparseFile k) 0 100 ["imu"]).chunk_,
      skippable (RecordReader.new (sparseFile k) 0 100 ["imu"]) m) ∧
    (RecordReader.new (sparseFile k) 0 100 ["imu"]).file_reader_.remaining =
      sparseSections k := by
  refine ⟨rfl, rfl, rfl, ?_, rfl⟩
  intro m hm
  simp [RecordReader.new] at hm

theorem chunkBodyCount_sparseSections (k : Nat) : chunkBodyCount (sparseSections k) = k := by
  induction k with
  | zero => rfl
  | succ k ih => simp [sparseSections, chunkBodyCount, ih]

/-! ## Properties of the reader -/

/-- C1: every message yielded by any of `n` successive `ReadMessage` calls on a
freshly constructed reader has its time inside the window stored by the
constructor (the requested window clamped as `new_window` says) and, when the
channel filter is non-empty, its channel in the filter. -/
theorem yielded_within_window_and_filter (file : RecordFileReader) (b e : Nat)
    (channels : List String) (n : Nat) (m : RecordMessage)
    (h : m ∈ yielded n (RecordReader.new file b e channels)) :
    (RecordReader.new file b e channels).begin_time_ ≤ m.time ∧
    m.time ≤ (RecordReader.new file b e channels).end_time_ ∧
    (RecordReader.new file b e channels).begin_time_ = max b file.header.begin_time ∧
    (RecordReader.new file b e channels).end_time_ = min e file.header.end_time ∧
    (channels ≠ [] → m.channel_name ∈ channels) := by
  obtain ⟨h1, h2, h3⟩ := yielded_matches n _ m h
  obtain ⟨w1, w2⟩ := new_window file b e channels
  exact ⟨h1, h2, w1, w2, h3⟩

theorem yielded_within_window_and_filter_witness :
    ({ channel_name := "a", content := "y", time := 25 } : RecordMessage) ∈
        yielded 3 (RecordReader.new twoChunkFile 20 50 ["a", "b"]) ∧
    ((RecordReader.new twoChunkFile 20 50 ["a", "b"]).begin_time_ ≤ 25 ∧
     25 ≤ (RecordReader.new twoChunkFile 20 50 ["a", "b"]).end_time_ ∧
     (RecordReader.new twoChunkFile 20 50 ["a", "b"]).begin_time_ = max 20 0 ∧
     (RecordReader.new twoChunkFile 20 50 ["a", "b"]).end_time_ = min 50 100 ∧
     (["a", "b"] ≠ [] → "a" ∈ ["a", "b"])) :=
  ⟨by decide,
   yielded_within_window_and_filter twoChunkFile 20 50 ["a", "b"] 3
     { channel_name := "a", content := "y", time := 25 } (by decide)⟩

/-- C3: the messages yielded by `n` successive calls form a sublist (positions
kept in order, each used at most once) of the messages of the file's chunk
bodies in file order; hence, when those are in non-decreasing time order, so
are the yielded messages. -/
theorem yielded_sublist_of_file (file : RecordFileReader) (b e : Nat)
    (channels : List String) (n : Nat) :
    (yielded n (RecordReader.new file b e channels)).Sublist
        ((allMessages file.sections).map SingleMessage.toRecord) ∧
    (((allMessages file.sections).map SingleMessage.time).Pairwise (· ≤ ·) →
      ((yielded n (RecordReader.new file b e channels)).map RecordMessage.time).Pairwise
        (· ≤ ·)) := by
  have hs : (yielded n (RecordReader.new file b e channels)).Sublist
      ((allMessages file.sections).map SingleMessage.toRecord) := by
    have h := yielded_sublist n (RecordReader.new file b e channels)
    have hp : pending (RecordReader.new file b e channels) = allMessages file.sections := by
      simp [pending, RecordReader.new, RecordFileReader.Reset]
    rw [hp] at h
    exact (List.sublist_append_left _ _).trans h
  refine ⟨hs, fun hsorted => ?_⟩
  have h2 := hs.map RecordMessage.time
  rw [List.map_map] at h2
  exact List.Pairwise.sublist h2 hsorted

theorem yielded_sublist_of_file_witness :
    ((allMessages twoChunkFile.sections).map SingleMessage.time).Pairwise (· ≤ ·) ∧
    ((yielded 4 (RecordReader.new twoChunkFile 0 100 [])).map RecordMessage.time).Pairwise
      (· ≤ ·) :=
  ⟨by decide, (yielded_sublist_of_file twoChunkFile 0 100 [] 4).2 (by decide)⟩

/-- C4: when the header span `[hb, he]` is well-formed, the requested window
`[b, e]` is well-formed and the two intersect, the constructor stores
`max b hb` and `min e he`, and `hb ≤ begin_time_ ≤ end_time_ ≤ he`. -/
theorem constructor_clamps (file : RecordFileReader) (b e : Nat) (channels : List String)
    (hh : file.header.begin_time ≤ file.header.end_time) (hbe : b ≤ e)
    (h1 : b ≤ file.header.end_time) (h2 : file.header.begin_time ≤ e) :
    (RecordReader.new file b e channels).begin_time_ = max b file.header.begin_time ∧
    (RecordReader.new file b e channels).end_time_ = min e file.header.end_time ∧
    file.header.begin_time ≤ (RecordReader.new file b e channels).begin_time_ ∧
    (RecordReader.new file b e channels).begin_time_ ≤
      (RecordReader.new file b e channels).end_time_ ∧
    (RecordReader.new file b e channels).end_time_ ≤ file.header.end_time := by
  obtain ⟨w1, w2⟩ := new_window file b e channels
  rw [w1, w2]
  refine ⟨rfl, rfl, ?_, ?_, ?_⟩ <;> omega

theorem constructor_clamps_witness :
    (twoChunkFile.header.begin_time ≤ twoChunkFile.header.end_time ∧ 20 ≤ 150 ∧
      20 ≤ twoChunkFile.header.end_time ∧ twoChunkFile.header.begin_time ≤ 150) ∧
    (RecordReader.new twoChunkFile 20 150 []).begin_time_ = 20 ∧
    (RecordReader.new twoChunkFile 20 150 []).end_time_ = 100 :=
  ⟨by decide,
   (constructor_clamps twoChunkFile 20 150 [] (by decide) (by decide) (by decide)
     (by decide)).1,
   (constructor_clamps twoChunkFile 20 150 [] (by decide) (by decide) (by decide)
     (by decide)).2.1⟩

/-- C5, as stated, fails: with header `[0,100]` and request `(200, 300)` the
stored begin time is 200, above the header's end time. -/
theorem window_within_header_counterexample :
    ¬ (twoChunkFile.header.begin_time ≤ (RecordReader.new twoChunkFile 200 300 []).begin_time_ ∧
       (RecordReader.new twoChunkFile 200 300 []).begin_time_ ≤ twoChunkFile.header.end_time ∧
       twoChunkFile.header.begin_time ≤ (RecordReader.new twoChunkFile 200 300 []).end_time_ ∧
       (RecordReader.new twoChunkFile 200 300 []).end_time_ ≤ twoChunkFile.header.end_time) := by
  decide

/-- C5, amended: after construction and after any number of `ReadMessage` calls,
the begin time is at least the header's begin time and the end time at most
the header's end time; each bound also lies on the other side of the header
span when the header span is well-formed and the requested bound does. -/
theorem window_clamped_one_sided (file : RecordFileReader) (b e : Nat)
    (channels : List String) (n : Nat) :
    file.header.begin_time ≤ (readCalls n (RecordReader.new file b e channels)).2.begin_time_ ∧
    (readCalls n (RecordReader.new file b e channels)).2.end_time_ ≤ file.header.end_time ∧
    (file.header.begin_time ≤ file.header.end_time → b ≤ file.header.end_time →
      (readCalls n (RecordReader.new file b e channels)).2.begin_time_ ≤ file.header.end_time) ∧
    (file.header.begin_time ≤ file.header.end_time → file.header.begin_time ≤ e →
      file.header.begin_time ≤ (readCalls n (RecordReader.new file b e channels)).2.end_time_) := by
  obtain ⟨f1, f2, _⟩ := readCalls_frame n (RecordReader.new file b e channels)
  obtain ⟨w1, w2⟩ := new_window file b e channels
  rw [f1, f2, w1, w2]
  refine ⟨?_, ?_, ?_, ?_⟩ <;> omega

theorem window_clamped_one_sided_witness :
    (twoChunkFile.header.begin_time ≤ twoChunkFile.header.end_time ∧
      20 ≤ twoChunkFile.header.end_time ∧ twoChunkFile.header.begin_time ≤ 150) ∧
    (readCalls 2 (RecordReader.new twoChunkFile 20 150 [])).2.begin_time_ ≤
      twoChunkFile.header.end_time ∧
    twoChunkFile.header.begin_time ≤
      (readCalls 2 (RecordReader.new twoChunkFile 20 150 [])).2.end_time_ :=
  ⟨by decide,
   (window_clamped_one_sided twoChunkFile 20 150 [] 2).2.2.1 (by decide) (by decide),
   (window_clamped_one_sided twoChunkFile 20 150 [] 2).2.2.2 (by decide) (by decide)⟩

/-- C6: when the clamped window has `begin_time_ > end_time_`, construction
still gives a reader holding exactly the clamped bounds, every one of `n`
successive `ReadMessage` calls returns end-of-stream (nothing is yielded), and
`OnNewMessage` is never invoked. -/
theorem degenerate_range_yields_nothing (file : RecordFileReader) (b e : Nat)
    (channels : List String) (n : Nat)
    (h : (RecordReader.new file b e channels).begin_time_ >
      (RecordReader.new file b e channels).end_time_) :
    (RecordReader.new file b e channels).begin_time_ = max b file.header.begin_time ∧
    (RecordReader.new file b e channels).end_time_ = min e file.header.end_time ∧
    (readCalls n (RecordReader.new file b e channels)).1 = List.replicate n none ∧
    yielded n (RecordReader.new file b e channels) = [] ∧
    messageEvents (readCalls n (RecordReader.new file b e channels)).2.trace = [] := by
  obtain ⟨w1, w2⟩ := new_window file b e channels
  have hy : yielded n (RecordReader.new file b e channels) = [] := by
    apply List.eq_nil_iff_forall_not_mem.mpr
    intro m hm
    obtain ⟨m1, m2, _⟩ := yielded_matches n _ m hm
    omega
  refine ⟨w1, w2, ?_, hy, ?_⟩
  · apply List.eq_replicate_iff.mpr
    refine ⟨readCalls_length n _, ?_⟩
    intro o ho
    cases o with
    | none => rfl
    | some m =>
      have : m ∈ yielded n (RecordReader.new file b e channels) := by
        simp only [yielded, List.reduceOption_mem_iff]
        exact ho
      rw [hy] at this
      simp at this
  · rw [readCalls_messageEvents, hy]
    simp [RecordReader.new, messageEvents]

theorem degenerate_range_yields_nothing_witness :
    (RecordReader.new twoChunkFile 50 10 []).begin_time_ >
      (RecordReader.new twoChunkFile 50 10 []).end_time_ ∧
    (RecordReader.new twoChunkFile 50 10 []).begin_time_ = 50 ∧
    (RecordReader.new twoChunkFile 50 10 []).end_time_ = 10 ∧
    (readCalls 3 (RecordReader.new twoChunkFile 50 10 [])).1 = [none, none, none] :=
  ⟨by decide,
   (degenerate_range_yields_nothing twoChunkFile 50 10 [] 3 (by decide)).1,
   (degenerate_range_yields_nothing twoChunkFile 50 10 [] 3 (by decide)).2.1,
   (degenerate_range_yields_nothing twoChunkFile 50 10 [] 3 (by decide)).2.2.1⟩

/-- C8, as stated, fails. On `repeatedChannelFile`, which declares channel `a` in
two `CHANNEL` sections, the first call invokes `OnNewChannel` twice for `a`.
On `oneChunkFile`, which has no `CHANNEL` section, the first call yields a
message on channel `a` and `OnNewChannel` is never invoked for it. -/
theorem onNewChannel_exactly_once_counterexample :
    channelEvents (ReadMessage (RecordReader.new repeatedChannelFile 0 100 [])).2.trace =
      ["a", "a"] ∧
    (ReadMessage (RecordReader.new oneChunkFile 0 100 [])).1 =
      some { channel_name := "a", content := "v", time := 25 } ∧
    channelEvents (readCalls 3 (RecordReader.new oneChunkFile 0 100 [])).2.trace = [] := by
  decide

/-- C8, amended: after any number of calls, `OnNewChannel` has been invoked once
for each decodable `CHANNEL` section among the sections read so far, in file
order; so it is invoked at most once per channel name when the file's
`CHANNEL` sections carry distinct names; and when every chunk message is on a
channel declared by a `CHANNEL` section earlier in the stream, every
`OnNewMessage` (every yield) on a channel comes after the `OnNewChannel` for
that channel. -/
theorem onNewChannel_once_per_channel_section (file : RecordFileReader) (b e : Nat)
    (channels : List String) (n : Nat) :
    (∃ consumed,
      file.sections =
        consumed ++ (readCalls n (RecordReader.new file b e channels)).2.file_reader_.remaining ∧
      channelEvents (readCalls n (RecordReader.new file b e channels)).2.trace =
        sectionChannels consumed) ∧
    ((sectionChannels file.sections).Nodup →
      (channelEvents (readCalls n (RecordReader.new file b e channels)).2.trace).Nodup) ∧
    (declaredBeforeUse [] file.sections = true →
      AnnouncedFirst (readCalls n (RecordReader.new file b e channels)).2.trace) := by
  have hrep := readCalls_channelsReported file.sections n _
    (new_channelsReported file b e channels)
  refine ⟨hrep, ?_, ?_⟩
  · intro hnodup
    obtain ⟨consumed, h1, h2⟩ := hrep
    rw [h1, sectionChannels_append] at hnodup
    rw [h2]
    exact (List.nodup_append.mp hnodup).1
  · intro hdecl
    exact (readCalls_channelsAnnounced file.sections hdecl n _
      (new_channelsReported file b e channels) (new_channelsAnnounced file b e channels)).2

theorem onNewChannel_once_per_channel_section_witness :
    ((sectionChannels mixedChannelFile.sections).Nodup ∧
      declaredBeforeUse [] mixedChannelFile.sections = true) ∧
    (channelEvents
      (readCalls 3 (RecordReader.new mixedChannelFile 0 100 ["imu"])).2.trace).Nodup ∧
    AnnouncedFirst (readCalls 3 (RecordReader.new mixedChannelFile 0 100 ["imu"])).2.trace :=
  ⟨by decide,
   (onNewChannel_once_per_channel_section mixedChannelFile 0 100 ["imu"] 3).2.1 (by decide),
   (onNewChannel_once_per_channel_section mixedChannelFile 0 100 ["imu"] 3).2.2 (by decide)⟩

/-- C9: `OnNewMessage` is invoked exactly once per yielded message, with that
message's channel name and in yield order: the invocations after `n` calls are
the channel names of the yielded messages; a single call, from any reader
state, adds one invocation when it yields and none when it returns
end-of-stream. With filter `imu` over a chunk mixing `imu` and `camera`, the
two `imu` messages are yielded and the hook fires twice, for `imu`. -/
theorem onNewMessage_once_per_yield (file : RecordFileReader) (b e : Nat)
    (channels : List String) (n : Nat) (r : RecordReader) :
    messageEvents (readCalls n (RecordReader.new file b e channels)).2.trace =
      (yielded n (RecordReader.new file b e channels)).map RecordMessage.channel_name ∧
    messageEvents (ReadMessage r).2.trace =
      messageEvents r.trace ++ (ReadMessage r).1.toList.map RecordMessage.channel_name ∧
    yielded 4 (RecordReader.new mixedChannelFile 0 100 ["imu"]) =
      [{ channel_name := "imu", content := "i1", time := 1 },
       { channel_name := "imu", content := "i2", time := 3 }] ∧
    messageEvents (readCalls 4 (RecordReader.new mixedChannelFile 0 100 ["imu"])).2.trace =
      ["imu", "imu"] := by
  refine ⟨?_, ReadMessage.go_messageEvents _ r, by decide, by decide⟩
  rw [readCalls_messageEvents]
  simp [RecordReader.new, messageEvents]

/-- C2, evaluated on the code: `twoChunkFile` is well-formed and time-ordered and
the window `[60,90]` is well-formed, yet reading up to the first end-of-stream
yields nothing, although the file's message at time 70 lies in the window. The
first chunk header `[0,30]` ends before the window begins, and
`ReadNextChunk` returns false there instead of skipping that chunk. -/
theorem no_loss_fails_on_ordered_file :
    WellFormedOrdered twoChunkFile ∧
    readUntilEnd 5 (RecordReader.new twoChunkFile 60 90 []) = [] ∧
    ((allMessages twoChunkFile.sections).map SingleMessage.toRecord).filter
        (fun m => decide (matchesReader (RecordReader.new twoChunkFile 60 90 []) m)) =
      [{ channel_name := "a", content := "z", time := 70 }] := by
  decide

/-- C7, as stated, fails: on `brokenChunkFile` the first call reaches the chunk
body that fails to decode and returns end-of-stream, and the second call on the
same reader yields the message of the chunk after it. -/
theorem decode_failure_not_terminal_counterexample :
    (ReadMessage (RecordReader.new brokenChunkFile 0 100 [])).1 = none ∧
    (ReadMessage (RecordReader.new brokenChunkFile 0 100 [])).2.file_reader_.remaining =
      [ Section.chunkHeader (some { begin_time := 50, end_time := 100 }),
        Section.chunkBody (some [{ channel_name := "a", content := "w", time := 60 }]) ] ∧
    (ReadMessage (ReadMessage (RecordReader.new brokenChunkFile 0 100 [])).2).1 =
      some { channel_name := "a", content := "w", time := 60 } := by
  decide

/-- C7, amended: let a chunk body that fails to decode lie ahead of the reader.
A call that ends with the source just after that section returned
end-of-stream; and the call that runs off its current chunk and scans up to
that section (not marked for skipping) returns end-of-stream with the current
chunk untouched, the cursor where the message loop left it, the `CHANNEL`
sections passed on the way reported and the source just after the failed
section. Nothing is remembered of the failure: the next call scans on from
there. -/
theorem decode_failure_ends_the_call (r : RecordReader) (before rest : List Section)
    (hrem : r.file_reader_.remaining = before ++ Section.chunkBody none :: rest) :
    ((ReadMessage r).2.file_reader_.remaining = rest → (ReadMessage r).1 = none) ∧
    (∀ index,
      ReadMessage.loop r (r.chunk_.drop r.index_) r.index_ = (LoopExit.exhausted, index) →
      scanContinues r before false = some false →
      ReadMessage r =
        (none, { r with index_ := index,
                        file_reader_ := { r.file_reader_ with remaining := rest },
                        trace := r.trace ++ sectionChannelEvents before })) := by
  constructor
  · intro hpos
    cases hout : (ReadMessage r).1 with
    | none => rfl
    | some m =>
      exfalso
      rcases ReadMessage.go_yield_position _ r m hout with h1 | ⟨before1, messages, h1⟩
      · have h2 : (ReadMessage r).2.file_reader_.remaining = r.file_reader_.remaining := h1
        rw [hpos, hrem] at h2
        have := congrArg List.length h2
        simp at this
        omega
      · have h2 : r.file_reader_.remaining =
            before1 ++ Section.chunkBody (some messages) ::
              (ReadMessage r).2.file_reader_.remaining := h1
        rw [hpos, hrem] at h2
        have h3 : before ++ [Section.chunkBody none] ++ rest =
            before1 ++ [Section.chunkBody (some messages)] ++ rest := by simpa using h2
        have h4 := List.append_cancel_right h3
        have h5 := congrArg List.getLast? h4
        simp at h5
  · intro index hloop hscan
    apply ReadMessage_of_scan_false r _ index hloop
    unfold ReadNextChunk
    dsimp only
    rw [hrem, ReadNextChunk.loop_append _ before _ false false _
      (by rw [scanContinues_index]; exact hscan)]
    simp [ReadNextChunk.loop]

theorem decode_failure_ends_the_call_witness :
    ((RecordReader.new brokenChunkFile 0 100 []).file_reader_.remaining =
        [Section.chunkHeader (some { begin_time := 0, end_time := 50 })] ++
          Section.chunkBody none ::
            [ Section.chunkHeader (some { begin_time := 50, end_time := 100 }),
              Section.chunkBody (some [{ channel_name := "a", content := "w", time := 60 }]) ] ∧
      scanContinues (RecordReader.new brokenChunkFile 0 100 [])
        [Section.chunkHeader (some { begin_time := 0, end_time := 50 })] false = some false) ∧
    (ReadMessage (RecordReader.new brokenChunkFile 0 100 [])).1 = none ∧
    ReadMessage (RecordReader.new brokenChunkFile 0 100 []) =
      (none, { RecordReader.new brokenChunkFile 0 100 [] with
                 index_ := 0,
                 file_reader_ :=
                   { (RecordReader.new brokenChunkFile 0 100 []).file_reader_ with
                     remaining :=
                       [ Section.chunkHeader (some { begin_time := 50, end_time := 100 }),
                         Section.chunkBody
                           (some [{ channel_name := "a", content := "w", time := 60 }]) ] },
                 trace := (RecordReader.new brokenChunkFile 0 100 []).trace ++
                   sectionChannelEvents
                     [Section.chunkHeader (some { begin_time := 0, end_time := 50 })] }) :=
  ⟨by decide,
   (decode_failure_ends_the_call (RecordReader.new brokenChunkFile 0 100 [])
      [Section.chunkHeader (some { begin_time := 0, end_time := 50 })]
      [ Section.chunkHeader (some { begin_time := 50, end_time := 100 }),
        Section.chunkBody (some [{ channel_name := "a", content := "w", time := 60 }]) ]
      (by decide)).1 (by decide),
   (decode_failure_ends_the_call (RecordReader.new brokenChunkFile 0 100 [])
      [Section.chunkHeader (some { begin_time := 0, end_time := 50 })]
      [ Section.chunkHeader (some { begin_time := 50, end_time := 100 }),
        Section.chunkBody (some [{ channel_name := "a", content := "w", time := 60 }]) ]
      (by decide)).2 0 (by decide) (by decide)⟩

/-- C10, as stated, fails. On `twoChunkFile` with window `[0,50]` the third call
reads the chunk header `[60,90]`, which lies after the end time, and goes on
to read the chunk body after it: the source ends the call empty, not at that
body. On `oneChunkFile` with the inverted window `(50, 10)` the first call
stops at the header `[20,30]`, which lies after the end time, and the second
call reads the chunk body after it. -/
theorem pruning_reads_on_counterexample :
    ((readCalls 2 (RecordReader.new twoChunkFile 0 50 [])).2.end_time_ = 50 ∧
     (readCalls 2 (RecordReader.new twoChunkFile 0 50 [])).2.file_reader_.remaining =
       [ Section.chunkHeader (some { begin_time := 60, end_time := 90 }),
         Section.chunkBody (some [{ channel_name := "a", content := "z", time := 70 }]) ] ∧
     (readCalls 3 (RecordReader.new twoChunkFile 0 50 [])).2.file_reader_.remaining = []) ∧
    ((RecordReader.new oneChunkFile 50 10 []).end_time_ = 10 ∧
     (readCalls 1 (RecordReader.new oneChunkFile 50 10 [])).2.file_reader_.remaining =
       [Section.chunkBody (some [{ channel_name := "a", content := "v", time := 25 }])] ∧
     (readCalls 2 (RecordReader.new oneChunkFile 50 10 [])).2.file_reader_.remaining = []) := by
  decide

/-- C10, amended: when a call runs off its current chunk and its scan stops at a
chunk header (the header does not let the scan continue), the call returns
end-of-stream having read no section after that header: the source is left
with exactly the sections that follow it, the current chunk is untouched, and
only the `CHANNEL` sections before the header were reported. The stop is not
remembered, so the next call reads on from there. -/
theorem scan_stop_at_header_reads_no_further (r : RecordReader) (before rest : List Section)
    (header : ChunkHeader) (index : Nat) (skip : Bool)
    (hrem : r.file_reader_.remaining = before ++ Section.chunkHeader (some header) :: rest)
    (hloop : ReadMessage.loop r (r.chunk_.drop r.index_) r.index_ = (LoopExit.exhausted, index))
    (hscan : scanContinues r before false = some skip)
    (hstop : scanContinues r [Section.chunkHeader (some header)] skip = none) :
    ReadMessage r =
      (none, { r with index_ := index,
                      file_reader_ := { r.file_reader_ with remaining := rest },
                      trace := r.trace ++ sectionChannelEvents before }) ∧
    (ReadMessage r).2.file_reader_.remaining = rest := by
  have key : ReadMessage r =
      (none, { r with index_ := index,
                      file_reader_ := { r.file_reader_ with remaining := rest },
                      trace := r.trace ++ sectionChannelEvents before }) := by
    apply ReadMessage_of_scan_false r _ index hloop
    unfold ReadNextChunk
    dsimp only
    rw [hrem, ReadNextChunk.loop_append _ before _ false skip _
      (by rw [scanContinues_index]; exact hscan)]
    have h1 : r.begin_time_ > header.end_time := by
      by_contra hc
      by_cases h2 : r.end_time_ < header.begin_time <;> simp [scanContinues, hc, h2] at hstop
    simp [ReadNextChunk.loop, h1]
  exact ⟨key, by rw [key]⟩

theorem scan_stop_at_header_reads_no_further_witness :
    ((RecordReader.new oneChunkFile 50 10 []).file_reader_.remaining =
        [] ++ Section.chunkHeader (some { begin_time := 20, end_time := 30 }) ::
          [Section.chunkBody (some [{ channel_name := "a", content := "v", time := 25 }])] ∧
     scanContinues (RecordReader.new oneChunkFile 50 10 [])
        [Section.chunkHeader (some { begin_time := 20, end_time := 30 })] false = none) ∧
    (ReadMessage (RecordReader.new oneChunkFile 50 10 [])).2.file_reader_.remaining =
      [Section.chunkBody (some [{ channel_name := "a", content := "v", time := 25 }])] :=
  ⟨by decide,
   (scan_stop_at_header_reads_no_further (RecordReader.new oneChunkFile 50 10 []) []
      [Section.chunkBody (some [{ channel_name := "a", content := "v", time := 25 }])]
      { begin_time := 20, end_time := 30 } 0 false (by decide) (by decide) (by decide)
      (by decide)).2⟩

/-- C14: when the first section at which the scan does not continue is a decoded
chunk header with `begin_time_ > header.end_time`, `ReadNextChunk` returns
false there: the source is left just after that header (its body and all
later sections unread), the current chunk and the cursor are unchanged, and
only the `CHANNEL` sections before the header were reported. -/
theorem chunk_header_before_window_stops_scan (r : RecordReader) (before rest : List Section)
    (header : ChunkHeader) (skip : Bool)
    (hrem : r.file_reader_.remaining = before ++ Section.chunkHeader (some header) :: rest)
    (hscan : scanContinues r before false = some skip)
    (hlate : r.begin_time_ > header.end_time) :
    ReadNextChunk r =
      (false, { r with file_reader_ := { r.file_reader_ with remaining := rest },
                       trace := r.trace ++ sectionChannelEvents before }) ∧
    (ReadNextChunk r).2.file_reader_.remaining = rest ∧
    (ReadNextChunk r).2.chunk_ = r.chunk_ ∧
    (ReadNextChunk r).2.index_ = r.index_ := by
  have key : ReadNextChunk r =
      (false, { r with file_reader_ := { r.file_reader_ with remaining := rest },
                       trace := r.trace ++ sectionChannelEvents before }) := by
    rw [ReadNextChunk_of_scan r before _ skip hrem hscan]
    simp [ReadNextChunk.loop, hlate]
  exact ⟨key, by rw [key], by rw [key], by rw [key]⟩

theorem chunk_header_before_window_stops_scan_witness :
    ((RecordReader.new twoChunkFile 60 90 []).file_reader_.remaining =
        [Section.channel (some { name := "a", message_type := "t", proto_desc := "d" })] ++
          Section.chunkHeader (some { begin_time := 0, end_time := 30 }) ::
            [ Section.chunkBody (some [{ channel_name := "a", content := "x", time := 10 },
                                       { channel_name := "a", content := "y", time := 25 }]),
              Section.chunkHeader (some { begin_time := 60, end_time := 90 }),
              Section.chunkBody (some [{ channel_name := "a", content := "z", time := 70 }]) ] ∧
      (RecordReader.new twoChunkFile 60 90 []).begin_time_ > 30) ∧
    (ReadNextChunk (RecordReader.new twoChunkFile 60 90 [])).2.file_reader_.remaining =
      [ Section.chunkBody (some [{ channel_name := "a", content := "x", time := 10 },
                                 { channel_name := "a", content := "y", time := 25 }]),
        Section.chunkHeader (some { begin_time := 60, end_time := 90 }),
        Section.chunkBody (some [{ channel_name := "a", content := "z", time := 70 }]) ] :=
  ⟨by decide,
   (chunk_header_before_window_stops_scan (RecordReader.new twoChunkFile 60 90 [])
      [Section.channel (some { name := "a", message_type := "t", proto_desc := "d" })]
      [ Section.chunkBody (some [{ channel_name := "a", content := "x", time := 10 },
                                 { channel_name := "a", content := "y", time := 25 }]),
        Section.chunkHeader (some { begin_time := 60, end_time := 90 }),
        Section.chunkBody (some [{ channel_name := "a", content := "z", time := 70 }]) ]
      { begin_time := 0, end_time := 30 } false (by decide) (by decide) (by decide)).2.1⟩

/-- C12: when the first section at which the scan does not continue is fatal (a
`CHANNEL`, `CHUNK_HEADER` or unskipped `CHUNK_BODY` section that fails to
decode, or a section of unrecognised type), `ReadNextChunk` returns false with
the source just after that section, the current chunk and cursor unchanged and
only the `CHANNEL` sections before it reported (no hook is invoked for the
offending section); the enclosing `ReadMessage` returns end-of-stream. -/
theorem fatal_section_aborts_scan (r : RecordReader) (before rest : List Section)
    (s : Section) (skip : Bool)
    (hrem : r.file_reader_.remaining = before ++ s :: rest)
    (hscan : scanContinues r before false = some skip)
    (hfatal : fatalSection skip s = true) :
    ReadNextChunk r =
      (false, { r with file_reader_ := { r.file_reader_ with remaining := rest },
                       trace := r.trace ++ sectionChannelEvents before }) ∧
    (∀ index,
      ReadMessage.loop r (r.chunk_.drop r.index_) r.index_ = (LoopExit.exhausted, index) →
      ReadMessage r =
        (none, { r with index_ := index,
                        file_reader_ := { r.file_reader_ with remaining := rest },
                        trace := r.trace ++ sectionChannelEvents before })) := by
  have key : ∀ r0 : RecordReader, r0.file_reader_.remaining = before ++ s :: rest →
      scanContinues r0 before false = some skip →
      ReadNextChunk r0 =
        (false, { r0 with file_reader_ := { r0.file_reader_ with remaining := rest },
                          trace := r0.trace ++ sectionChannelEvents before }) := by
    intro r0 h1 h2
    rw [ReadNextChunk_of_scan r0 before _ skip h1 h2]
    cases s with
    | index n => simp [fatalSection] at hfatal
    | channel b =>
      cases b with
      | none => simp [ReadNextChunk.loop]
      | some c => simp [fatalSection] at hfatal
    | chunkHeader b =>
      cases b with
      | none => simp [ReadNextChunk.loop]
      | some c => simp [fatalSection] at hfatal
    | chunkBody b =>
      cases b with
      | none =>
        simp only [fatalSection, Bool.not_eq_true'] at hfatal
        simp [ReadNextChunk.loop, hfatal]
      | some c => simp [fatalSection] at hfatal
    | other t => simp [ReadNextChunk.loop]
  refine ⟨key r hrem hscan, ?_⟩
  intro index hloop
  apply ReadMessage_of_scan_false r _ index hloop
  exact key { r with index_ := index } hrem (by rw [scanContinues_index]; exact hscan)

theorem fatal_section_aborts_scan_witness :
    ((RecordReader.new brokenChunkFile 0 100 []).file_reader_.remaining =
        [Section.chunkHeader (some { begin_time := 0, end_time := 50 })] ++
          Section.chunkBody none ::
            [ Section.chunkHeader (some { begin_time := 50, end_time := 100 }),
              Section.chunkBody (some [{ channel_name := "a", content := "w", time := 60 }]) ] ∧
      fatalSection false (Section.chunkBody none) = true) ∧
    ReadNextChunk (RecordReader.new brokenChunkFile 0 100 []) =
      (false,
        { RecordReader.new brokenChunkFile 0 100 [] with
          file_reader_ :=
            { (RecordReader.new brokenChunkFile 0 100 []).file_reader_ with
              remaining :=
                [ Section.chunkHeader (some { begin_time := 50, end_time := 100 }),
                  Section.chunkBody
                    (some [{ channel_name := "a", content := "w", time := 60 }]) ] },
          trace := (RecordReader.new brokenChunkFile 0 100 []).trace ++
            sectionChannelEvents
              [Section.chunkHeader (some { begin_time := 0, end_time := 50 })] }) ∧
    (ReadMessage (RecordReader.new brokenChunkFile 0 100 [])).1 = none :=
  ⟨by decide,
   (fatal_section_aborts_scan (RecordReader.new brokenChunkFile 0 100 [])
      [Section.chunkHeader (some { begin_time := 0, end_time := 50 })]
      [ Section.chunkHeader (some { begin_time := 50, end_time := 100 }),
        Section.chunkBody (some [{ channel_name := "a", content := "w", time := 60 }]) ]
      (Section.chunkBody none) false (by decide) (by decide) (by decide)).1,
   congrArg Prod.fst
     ((fatal_section_aborts_scan (RecordReader.new brokenChunkFile 0 100 [])
        [Section.chunkHeader (some { begin_time := 0, end_time := 50 })]
        [ Section.chunkHeader (some { begin_time := 50, end_time := 100 }),
          Section.chunkBody (some [{ channel_name := "a", content := "w", time := 60 }]) ]
        (Section.chunkBody none) false (by decide) (by decide) (by decide)).2 0
        (by decide))⟩

/-- C16: `ReadNextChunk` returns true exactly when, before anything stops the
scan, it reaches a chunk body that is not marked for skipping and decodes. The
current chunk is then exactly that section's message list, the source is just
after that body, the `CHANNEL` sections passed were reported, and the
enclosing `ReadMessage` goes on as a call on the new chunk from cursor 0. -/
theorem scan_succeeds_iff_chunk_body_loaded (r : RecordReader) :
    ((ReadNextChunk r).1 = true ↔
      ∃ before messages rest,
        r.file_reader_.remaining = before ++ Section.chunkBody (some messages) :: rest ∧
        scanContinues r before false = some false) ∧
    (∀ before messages rest,
      r.file_reader_.remaining = before ++ Section.chunkBody (some messages) :: rest →
      scanContinues r before false = some false →
      ReadNextChunk r =
        (true, { r with chunk_ := messages,
                        file_reader_ := { r.file_reader_ with remaining := rest },
                        trace := r.trace ++ sectionChannelEvents before }) ∧
      (∀ index,
        ReadMessage.loop r (r.chunk_.drop r.index_) r.index_ = (LoopExit.exhausted, index) →
        ReadMessage r =
          ReadMessage { r with chunk_ := messages, index_ := 0,
                               file_reader_ := { r.file_reader_ with remaining := rest },
                               trace := r.trace ++ sectionChannelEvents before })) := by
  have key : ∀ (r0 : RecordReader) (before : List Section) (messages : List SingleMessage)
      (rest : List Section),
      r0.file_reader_.remaining = before ++ Section.chunkBody (some messages) :: rest →
      scanContinues r0 before false = some false →
      ReadNextChunk r0 =
        (true, { r0 with chunk_ := messages,
                         file_reader_ := { r0.file_reader_ with remaining := rest },
                         trace := r0.trace ++ sectionChannelEvents before }) := by
    intro r0 before messages rest h1 h2
    rw [ReadNextChunk_of_scan r0 before _ false h1 h2]
    simp [ReadNextChunk.loop]
  refine ⟨⟨?_, ?_⟩, ?_⟩
  · intro h
    rcases hres : ReadNextChunk r with ⟨b, r1⟩
    rw [hres] at h
    simp only at h
    subst h
    exact ReadNextChunk.loop_true_split r r1 _ false r.trace hres
  · rintro ⟨before, messages, rest, h1, h2⟩
    rw [key r before messages rest h1 h2]
  · intro before messages rest h1 h2
    refine ⟨key r before messages rest h1 h2, ?_⟩
    intro index hloop
    have h3 := key { r with index_ := index } before messages rest h1
      (by rw [scanContinues_index]; exact h2)
    exact ReadMessage_of_scan_true r _ index hloop h3

theorem scan_succeeds_iff_chunk_body_loaded_witness :
    ((RecordReader.new oneChunkFile 0 100 []).file_reader_.remaining =
        [Section.chunkHeader (some { begin_time := 20, end_time := 30 })] ++
          Section.chunkBody (some [{ channel_name := "a", content := "v", time := 25 }]) :: [] ∧
      scanContinues (RecordReader.new oneChunkFile 0 100 [])
        [Section.chunkHeader (some { begin_time := 20, end_time := 30 })] false = some false) ∧
    (ReadNextChunk (RecordReader.new oneChunkFile 0 100 [])).1 = true ∧
    (ReadNextChunk (RecordReader.new oneChunkFile 0 100 [])).2.chunk_ =
      [{ channel_name := "a", content := "v", time := 25 }] :=
  ⟨by decide,
   (scan_succeeds_iff_chunk_body_loaded (RecordReader.new oneChunkFile 0 100 [])).1.mpr
     ⟨[Section.chunkHeader (some { begin_time := 20, end_time := 30 })],
      [{ channel_name := "a", content := "v", time := 25 }], [], by decide, by decide⟩,
   congrArg (fun p => p.2.chunk_)
     (((scan_succeeds_iff_chunk_body_loaded (RecordReader.new oneChunkFile 0 100 [])).2
        [Section.chunkHeader (some { begin_time := 20, end_time := 30 })]
        [{ channel_name := "a", content := "v", time := 25 }] [] (by decide) (by decide)).1)⟩

/-- C15: let `m` be the first message at or after the cursor that is not
skippable. If `m` is later than the end time, `ReadMessage` returns
end-of-stream with the cursor just past `m`, reading no section and invoking
no hook; otherwise it returns `m` (channel name, content and time), with the
cursor just past `m`. With an empty filter a message is skippable only on
account of its time. -/
theorem in_chunk_filter_semantics (r : RecordReader) (skipped rest : List SingleMessage)
    (m : SingleMessage)
    (hdrop : r.chunk_.drop r.index_ = skipped ++ m :: rest)
    (hskip : ∀ s ∈ skipped, skippable r s) (hm : ¬ skippable r m) :
    (m.time > r.end_time_ →
      ReadMessage r = (none, { r with index_ := r.index_ + skipped.length + 1 })) ∧
    (m.time ≤ r.end_time_ →
      ReadMessage r =
        (some { channel_name := m.channel_name, content := m.content, time := m.time },
         { r with index_ := r.index_ + skipped.length + 1,
                  trace := r.trace ++ [Event.newMessage m.channel_name] })) ∧
    (r.channels_ = [] →
      ∀ s, skippable r s ↔ (s.time ≤ r.end_time_ ∧ s.time < r.begin_time_)) := by
  have hl := ReadMessage.loop_skip r skipped (m :: rest) r.index_ hskip
  rw [← hdrop] at hl
  refine ⟨?_, ?_, ?_⟩
  · intro hlate
    simp only [ReadMessage, ReadMessage.go, hl, ReadMessage.loop, if_pos hlate]
  · intro hin
    have h1 : ¬ m.time < r.begin_time_ := fun h => hm ⟨hin, Or.inl h⟩
    have h2 : ¬ (r.channels_ ≠ [] ∧ m.channel_name ∉ r.channels_) :=
      fun h => hm ⟨hin, Or.inr h⟩
    simp only [ReadMessage, ReadMessage.go, hl, ReadMessage.loop,
      if_neg (Nat.not_lt.mpr hin), if_neg h1, if_neg h2]
  · intro hempty s
    simp [skippable, hempty]

theorem in_chunk_filter_semantics_witness :
    ((ReadMessage (RecordReader.new twoChunkFile 0 20 [])).2.chunk_.drop
        (ReadMessage (RecordReader.new twoChunkFile 0 20 [])).2.index_ =
        [] ++ ({ channel_name := "a", content := "y", time := 25 } : SingleMessage) :: [] ∧
      ¬ skippable (ReadMessage (RecordReader.new twoChunkFile 0 20 [])).2
        { channel_name := "a", content := "y", time := 25 }) ∧
    ((ReadMessage (RecordReader.new mixedChannelFile 0 100 ["imu"])).2.chunk_.drop
        (ReadMessage (RecordReader.new mixedChannelFile 0 100 ["imu"])).2.index_ =
        [({ channel_name := "camera", content := "c1", time := 2 } : SingleMessage)] ++
          { channel_name := "imu", content := "i2", time := 3 } ::
            [{ channel_name := "camera", content := "c2", time := 4 }] ∧
      skippable (ReadMessage (RecordReader.new mixedChannelFile 0 100 ["imu"])).2
        { channel_name := "camera", content := "c1", time := 2 } ∧
      ¬ skippable (ReadMessage (RecordReader.new mixedChannelFile 0 100 ["imu"])).2
        { channel_name := "imu", content := "i2", time := 3 }) ∧
    (ReadMessage (ReadMessage (RecordReader.new twoChunkFile 0 20 [])).2).1 = none ∧
    (ReadMessage (ReadMessage (RecordReader.new mixedChannelFile 0 100 ["imu"])).2).1 =
      some { channel_name := "imu", content := "i2", time := 3 } :=
  ⟨by decide, by decide,
   congrArg Prod.fst
     ((in_chunk_filter_semantics (ReadMessage (RecordReader.new twoChunkFile 0 20 [])).2 [] []
        { channel_name := "a", content := "y", time := 25 } (by decide) (by decide)
        (by decide)).1 (by decide)),
   congrArg Prod.fst
     ((in_chunk_filter_semantics
        (ReadMessage (RecordReader.new mixedChannelFile 0 100 ["imu"])).2
        [{ channel_name := "camera", content := "c1", time := 2 }]
        [{ channel_name := "camera", content := "c2", time := 4 }]
        { channel_name := "imu", content := "i2", time := 3 } (by decide) (by decide)
        (by decide)).2.1 (by decide))⟩

/-- The depth of the retry in general: each self-invocation of `ReadMessage`
follows a scan that left strictly fewer unread sections (and `CHUNK_BODY`
sections), so the number of nested self-invocations is at most the number of
unread `CHUNK_BODY` sections; with room on the call stack for more
invocations than that, the call returns, and what it returns is the result of
`ReadMessage`. The bound is attained: a run of `k` chunks without a matching
message nests exactly `k` self-invocations, so a call stack with room for `k`
invocations runs out on it, whatever `k` is, while room for `k + 1` is
enough. -/
theorem retry_nests_one_frame_per_chunk (frames : Nat) (r : RecordReader) (k : Nat) :
    ReadMessage.retries frames r ≤ chunkBodyCount r.file_reader_.remaining ∧
    (∀ index r1,
      ReadMessage.loop r (r.chunk_.drop r.index_) r.index_ = (LoopExit.exhausted, index) →
      ReadNextChunk { r with index_ := index } = (true, r1) →
      r1.file_reader_.remaining.length < r.file_reader_.remaining.length ∧
      chunkBodyCount r1.file_reader_.remaining < chunkBodyCount r.file_reader_.remaining ∧
      ReadMessage r = ReadMessage { r1 with index_ := 0 }) ∧
    (chunkBodyCount r.file_reader_.remaining < frames →
      ReadMessage.onStack frames r = some (ReadMessage r) ∧
      ReadMessage.go frames r = ReadMessage r) ∧
    (∀ res, ReadMessage.onStack frames r = some res → res = ReadMessage r) ∧
    (ReadMessage.onStack k (RecordReader.new (sparseFile k) 0 100 ["imu"]) = none ∧
     ReadMessage.onStack (k + 1) (RecordReader.new (sparseFile k) 0 100 ["imu"]) =
       some (ReadMessage (RecordReader.new (sparseFile k) 0 100 ["imu"])) ∧
     ReadMessage.retries (k + 1) (RecordReader.new (sparseFile k) 0 100 ["imu"]) = k) := by
  have hgo : ∀ (f : Nat) (r0 : RecordReader), chunkBodyCount r0.file_reader_.remaining < f →
      ReadMessage.go f r0 = ReadMessage r0 := by
    intro f r0 hf
    exact ReadMessage.go_fuel_bodies _ _ r0 hf
      (by have := chunkBodyCount_le_length r0.file_reader_.remaining; omega)
  obtain ⟨s1, s2, s3, s4, s5⟩ := new_sparseFile k
  obtain ⟨t1, _, _⟩ := ReadMessage.onStack_sparse k k _ s1 s2 s3 s4 s5
  obtain ⟨_, u2, _⟩ := ReadMessage.onStack_sparse k (k + 1) _ s1 s2 s3 s4 s5
  have hcount : chunkBodyCount
      (RecordReader.new (sparseFile k) 0 100 ["imu"]).file_reader_.remaining < k + 1 := by
    rw [s5, chunkBodyCount_sparseSections]; omega
  refine ⟨ReadMessage.retries_le frames r, ?_, ?_, ReadMessage.onStack_some frames r, ?_⟩
  · intro index r1 hloop hscan
    obtain ⟨h1, h2⟩ := ReadNextChunk_true_decreases _ _ hscan
    exact ⟨h1, h2, ReadMessage_of_scan_true r r1 index hloop hscan⟩
  · intro hroom
    rw [ReadMessage.onStack_of_room frames r hroom, hgo frames r hroom]
    exact ⟨rfl, rfl⟩
  · refine ⟨t1 (Nat.le_refl _), ?_, u2 (Nat.lt_succ_self _)⟩
    rw [ReadMessage.onStack_of_room (k + 1) _ hcount, hgo (k + 1) _ hcount]

theorem retry_nests_one_frame_per_chunk_witness :
    chunkBodyCount (RecordReader.new twoChunkFile 0 100 ["b"]).file_reader_.remaining < 3 ∧
    ReadMessage.onStack 3 (RecordReader.new twoChunkFile 0 100 ["b"]) =
      some (ReadMessage (RecordReader.new twoChunkFile 0 100 ["b"])) ∧
    ReadMessage.retries 3 (RecordReader.new twoChunkFile 0 100 ["b"]) = 2 ∧
    ReadMessage.onStack 2 (RecordReader.new twoChunkFile 0 100 ["b"]) = none :=
  ⟨by decide,
   ((retry_nests_one_frame_per_chunk 3 (RecordReader.new twoChunkFile 0 100 ["b"]) 0).2.2.1
      (by decide)).1,
   by decide, by decide⟩

/-- C13, as stated, fails: on `twoChunkFile` with window `[60,90]` the first call
returns end-of-stream because the chunk header `[0,30]` ends before the
window begins, leaving the source just after that header, and the second call
on the same reader yields the message at time 70. -/
theorem window_exhaustion_not_terminal_counterexample :
    (RecordReader.new twoChunkFile 60 90 []).begin_time_ = 60 ∧
    (ReadMessage (RecordReader.new twoChunkFile 60 90 [])).1 = none ∧
    (ReadMessage (RecordReader.new twoChunkFile 60 90 [])).2.file_reader_.remaining =
      [ Section.chunkBody (some [{ channel_name := "a", content := "x", time := 10 },
                                 { channel_name := "a", content := "y", time := 25 }]),
        Section.chunkHeader (some { begin_time := 60, end_time := 90 }),
        Section.chunkBody (some [{ channel_name := "a", content := "z", time := 70 }]) ] ∧
    (ReadMessage (ReadMessage (RecordReader.new twoChunkFile 60 90 [])).2).1 =
      some { channel_name := "a", content := "z", time := 70 } := by
  decide

/-- C13, amended: a call that returns end-of-stream because a chunk header showed
`begin_time_ > header.end_time` leaves a reader that remembers nothing of it:
the later calls are those of a reader standing just after that header, with
the same chunk and the cursor where the message loop left it. What is
terminal is true exhaustion of the source: once no section is unread and the
current chunk is used up, every later call returns end-of-stream and leaves
the reader as it is. -/
theorem only_source_exhaustion_is_terminal (r : RecordReader) (n : Nat) :
    (r.file_reader_.remaining = [] → r.chunk_.length ≤ r.index_ →
      readCalls n r = (List.replicate n none, r)) ∧
    (∀ before header rest index skip,
      r.file_reader_.remaining = before ++ Section.chunkHeader (some header) :: rest →
      ReadMessage.loop r (r.chunk_.drop r.index_) r.index_ = (LoopExit.exhausted, index) →
      scanContinues r before false = some skip →
      r.begin_time_ > header.end_time →
      (ReadMessage r).1 = none ∧
      readCalls n (ReadMessage r).2 =
        readCalls n { r with index_ := index,
                             file_reader_ := { r.file_reader_ with remaining := rest },
                             trace := r.trace ++ sectionChannelEvents before }) := by
  refine ⟨readCalls_exhausted n r, ?_⟩
  intro before header rest index skip hrem hloop hscan hlate
  have key : ReadMessage r =
      (none, { r with index_ := index,
                      file_reader_ := { r.file_reader_ with remaining := rest },
                      trace := r.trace ++ sectionChannelEvents before }) := by
    apply ReadMessage_of_scan_false r _ index hloop
    rw [ReadNextChunk_of_scan { r with index_ := index } before _ skip hrem
      (by rw [scanContinues_index]; exact hscan)]
    simp [ReadNextChunk.loop, hlate]
  rw [key]
  exact ⟨rfl, rfl⟩

theorem only_source_exhaustion_is_terminal_witness :
    (((readCalls 3 (RecordReader.new twoChunkFile 0 100 [])).2.file_reader_.remaining = [] ∧
      (readCalls 3 (RecordReader.new twoChunkFile 0 100 [])).2.chunk_.length ≤
        (readCalls 3 (RecordReader.new twoChunkFile 0 100 [])).2.index_) ∧
     (readCalls 2 (readCalls 3 (RecordReader.new twoChunkFile 0 100 [])).2).1 =
       [none, none]) ∧
    (((RecordReader.new oneChunkFile 50 100 []).file_reader_.remaining =
        [] ++ Section.chunkHeader (some { begin_time := 20, end_time := 30 }) ::
          [Section.chunkBody (some [{ channel_name := "a", content := "v", time := 25 }])] ∧
      (RecordReader.new oneChunkFile 50 100 []).begin_time_ > 30) ∧
     (ReadMessage (RecordReader.new oneChunkFile 50 100 [])).1 = none) :=
  ⟨⟨by decide,
    congrArg Prod.fst
      ((only_source_exhaustion_is_terminal
        (readCalls 3 (RecordReader.new twoChunkFile 0 100 [])).2 2).1 (by decide)
        (by decide))⟩,
   ⟨by decide,
    ((only_source_exhaustion_is_terminal (RecordReader.new oneChunkFile 50 100 []) 1).2 []
      { begin_time := 20, end_time := 30 }
      [Section.chunkBody (some [{ channel_name := "a", content := "v", time := 25 }])]
      0 false (by decide) (by decide) (by decide) (by decide)).1⟩⟩

/-- C17: a scan reports exactly the decodable `CHANNEL` sections among the
sections it reads, one `OnNewChannel` each with that section's name, message
type and descriptor, in file order, and nothing for any other section. Over
any number of calls on a fresh reader the `OnNewChannel` invocations are those
of the sections read so far, and every yield comes from a decoded chunk body
all of whose preceding `CHANNEL` sections were reported before it. On
`mixedChannelFile` both channels are reported before the first `imu` message. -/
theorem channel_sections_reported_in_order (file : RecordFileReader) (b e : Nat)
    (channels : List String) (n : Nat) (r : RecordReader) :
    (∃ consumed,
      r.file_reader_.remaining = consumed ++ (ReadNextChunk r).2.file_reader_.remaining ∧
      (ReadNextChunk r).2.trace = r.trace ++ sectionChannelEvents consumed) ∧
    (∃ consumed,
      file.sections =
        consumed ++ (readCalls n (RecordReader.new file b e channels)).2.file_reader_.remaining ∧
      channelCalls (readCalls n (RecordReader.new file b e channels)).2.trace =
        sectionChannelEvents consumed) ∧
    YieldsAfterChannels file.sections
      (readCalls n (RecordReader.new file b e channels)).2.trace ∧
    (readCalls 2 (RecordReader.new mixedChannelFile 0 100 ["imu"])).2.trace =
      [ Event.newChannel "imu" "t" "d", Event.newChannel "camera" "u" "d",
        Event.newMessage "imu", Event.newMessage "imu" ] := by
  obtain ⟨_, consumed, c1, c2, _, _⟩ :=
    ReadNextChunk_spec r (ReadNextChunk r).2 (ReadNextChunk r).1 rfl
  obtain ⟨consumed2, d1, d2, _, d4⟩ :=
    readCalls_channelsDiscovered file.sections n _ (new_channelsDiscovered file b e channels)
  exact ⟨⟨consumed, c1, c2⟩, ⟨consumed2, d1, d2⟩, d4, by decide⟩

/-- C19: two files with the same header whose section streams differ only in
`INDEX` sections (inserted or removed anywhere, also between a chunk header
and its chunk body) give, for the same window and filter, the same results of
every `ReadMessage` call, the same yielded messages and the same sequence of
`OnNewChannel` and `OnNewMessage` invocations. -/
theorem index_sections_are_transparent (file file1 : RecordFileReader) (b e : Nat)
    (channels : List String) (n : Nat)
    (hh : file.header = file1.header)
    (hs : dropIndex file.sections = dropIndex file1.sections) :
    (readCalls n (RecordReader.new file b e channels)).1 =
      (readCalls n (RecordReader.new file1 b e channels)).1 ∧
    yielded n (RecordReader.new file b e channels) =
      yielded n (RecordReader.new file1 b e channels) ∧
    (readCalls n (RecordReader.new file b e channels)).2.trace =
      (readCalls n (RecordReader.new file1 b e channels)).2.trace ∧
    (∀ before size after,
      dropIndex (before ++ Section.index size :: after) = dropIndex (before ++ after)) := by
  have hrel : IndexRelated (RecordReader.new file b e channels)
      (RecordReader.new file1 b e channels) := by
    refine ⟨?_, by simpa [RecordReader.new, RecordFileReader.Reset] using hs⟩
    simp [sameState, RecordReader.new, hh]
  obtain ⟨h1, h2, _⟩ := IndexRelated_calls n _ _ hrel
  refine ⟨h1, by simp only [yielded, h1], h2.2.2.2.2.2.2, ?_⟩
  intro before size after
  simp [dropIndex_append, dropIndex]

theorem index_sections_are_transparent_witness :
    (indexedTwoChunkFile.header = twoChunkFile.header ∧
      dropIndex indexedTwoChunkFile.sections = dropIndex twoChunkFile.sections) ∧
    (readCalls 4 (RecordReader.new indexedTwoChunkFile 0 100 [])).1 =
      (readCalls 4 (RecordReader.new twoChunkFile 0 100 [])).1 :=
  ⟨by decide,
   (index_sections_are_transparent indexedTwoChunkFile twoChunkFile 0 100 [] 4 (by decide)
     (by decide)).1⟩

/-- C11: let the reader's window be well-formed (`begin_time_ ≤ end_time_`) and
let the stream hold a chunk header with `begin_time ≤ end_time` and
`begin_time > end_time_`, directly followed by its chunk body. A scan that
reads that header passes over the body and goes on with the section after it.
The body is never decoded: the results of all calls, the current chunk, the
cursor and the hook invocations are the same whatever that body holds (its
messages replaced, or the body undecodable), and the yielded messages are a
sublist of the messages of the other chunk bodies. With header `[0,100]`,
request `[20,50]` and chunks `[0,30]`, `[60,90]`, exactly the message of chunk
1 at time 25 is yielded, then end-of-stream. -/
theorem chunk_after_window_is_skipped (file : RecordFileReader) (b e : Nat)
    (channels : List String) (before after : List Section) (header : ChunkHeader)
    (body body1 : Option (List SingleMessage)) (n : Nat)
    (hsec : file.sections =
      before ++ Section.chunkHeader (some header) :: Section.chunkBody body :: after)
    (hwin : (RecordReader.new file b e channels).begin_time_ ≤
      (RecordReader.new file b e channels).end_time_)
    (hspan : header.begin_time ≤ header.end_time)
    (hafter : (RecordReader.new file b e channels).end_time_ < header.begin_time) :
    (∀ r : RecordReader,
      r.begin_time_ = (RecordReader.new file b e channels).begin_time_ →
      r.end_time_ = (RecordReader.new file b e channels).end_time_ →
      ∀ rest skip tr,
        ReadNextChunk.loop r
            (Section.chunkHeader (some header) :: Section.chunkBody body :: rest) skip tr =
          ReadNextChunk.loop r rest false tr) ∧
    ((readCalls n (RecordReader.new file b e channels)).1 =
        (readCalls n (RecordReader.new
          { file with sections :=
              before ++ Section.chunkHeader (some header) :: Section.chunkBody body1 :: after }
          b e channels)).1 ∧
      sameState (readCalls n (RecordReader.new file b e channels)).2
        (readCalls n (RecordReader.new
          { file with sections :=
              before ++ Section.chunkHeader (some header) :: Section.chunkBody body1 :: after }
          b e channels)).2) ∧
    (yielded n (RecordReader.new file b e channels)).Sublist
      ((allMessages before ++ allMessages after).map SingleMessage.toRecord) ∧
    (readCalls 3 (RecordReader.new twoChunkFile 20 50 [])).1 =
      [some { channel_name := "a", content := "y", time := 25 }, none, none] := by
  have hrel : ∀ body2 : Option (List SingleMessage),
      SkippedBodyRelated header after (RecordReader.new file b e channels)
        (RecordReader.new
          { file with sections :=
              before ++ Section.chunkHeader (some header) :: Section.chunkBody body2 :: after }
          b e channels) := by
    intro body2
    refine ⟨by simp [sameState, RecordReader.new], hwin, hspan, hafter, Or.inl ?_⟩
    exact ⟨before, body, body2, by simp [RecordReader.new, RecordFileReader.Reset, hsec],
      by simp [RecordReader.new, RecordFileReader.Reset]⟩
  refine ⟨?_, ?_, ?_, by decide⟩
  · intro r h1 h2 rest skip tr
    exact ReadNextChunk.loop_skip_pair r header body rest skip tr (by rw [h1, h2]; exact hwin)
      hspan (by rw [h2]; exact hafter)
  · obtain ⟨c1, c2, _⟩ := SkippedBodyRelated_calls header after n _ _ (hrel body1)
    exact ⟨c1, c2⟩
  · obtain ⟨c1, _⟩ := SkippedBodyRelated_calls header after n _ _ (hrel none)
    have hy : yielded n (RecordReader.new file b e channels) =
        yielded n (RecordReader.new
          { file with sections :=
              before ++ Section.chunkHeader (some header) :: Section.chunkBody none :: after }
          b e channels) := by
      simp only [yielded, c1]
    rw [hy]
    have hs := yielded_sublist n (RecordReader.new
      { file with sections :=
          before ++ Section.chunkHeader (some header) :: Section.chunkBody none :: after }
      b e channels)
    have hp : pending (RecordReader.new
        { file with sections :=
            before ++ Section.chunkHeader (some header) :: Section.chunkBody none :: after }
        b e channels) = allMessages before ++ allMessages after := by
      simp [pending, RecordReader.new, RecordFileReader.Reset, allMessages_append, allMessages]
    rw [hp] at hs
    exact (List.sublist_append_left _ _).trans hs

theorem chunk_after_window_is_skipped_witness :
    (twoChunkFile.sections =
        [ Section.channel (some { name := "a", message_type := "t", proto_desc := "d" }),
          Section.chunkHeader (some { begin_time := 0, end_time := 30 }),
          Section.chunkBody (some [{ channel_name := "a", content := "x", time := 10 },
                                   { channel_name := "a", content := "y", time := 25 }]) ] ++
          Section.chunkHeader (some { begin_time := 60, end_time := 90 }) ::
            Section.chunkBody (some [{ channel_name := "a", content := "z", time := 70 }]) ::
              [] ∧
      (RecordReader.new twoChunkFile 20 50 []).begin_time_ ≤
        (RecordReader.new twoChunkFile 20 50 []).end_time_ ∧
      (60 : Nat) ≤ 90 ∧
      (RecordReader.new twoChunkFile 20 50 []).end_time_ < 60) ∧
    (yielded 3 (RecordReader.new twoChunkFile 20 50 [])).Sublist
      ((allMessages
          [ Section.channel (some { name := "a", message_type := "t", proto_desc := "d" }),
            Section.chunkHeader (some { begin_time := 0, end_time := 30 }),
            Section.chunkBody (some [{ channel_name := "a", content := "x", time := 10 },
                                     { channel_name := "a", content := "y", time := 25 }]) ] ++
        allMessages []).map SingleMessage.toRecord) :=
  ⟨by decide,
   (chunk_after_window_is_skipped twoChunkFile 20 50 []
      [ Section.channel (some { name := "a", message_type := "t", proto_desc := "d" }),
        Section.chunkHeader (some { begin_time := 0, end_time := 30 }),
        Section.chunkBody (some [{ channel_name := "a", content := "x", time := 10 },
                                 { channel_name := "a", content := "y", time := 25 }]) ]
      [] { begin_time := 60, end_time := 90 }
      (some [{ channel_name := "a", content := "z", time := 70 }]) none 3
      (by decide) (by decide) (by decide) (by decide)).2.2.1⟩

/-- C20: when every section of the file is of known type and decodes, every
chunk header span and every message time lies inside the file header's span,
and the requested window covers the file header's span, reading up to the
first end-of-stream yields exactly the messages of all chunk bodies whose
channel passes the filter, in file order. -/
theorem full_range_read_is_complete (file : RecordFileReader) (b e : Nat)
    (channels : List String) (n : Nat)
    (hsec : file.sections.all
      (sectionWithin file.header.begin_time file.header.end_time) = true)
    (hb : b ≤ file.header.begin_time) (he : file.header.end_time ≤ e)
    (hn : (allMessages file.sections).length < n) :
    readUntilEnd n (RecordReader.new file b e channels) =
      passing channels (allMessages file.sections) := by
  obtain ⟨w1, w2⟩ := new_window file b e channels
  have hp : pending (RecordReader.new file b e channels) = allMessages file.sections := by
    simp [pending, RecordReader.new, RecordFileReader.Reset]
  have hfull : FullRange (RecordReader.new file b e channels) := by
    refine ⟨by simp [RecordReader.new], ?_⟩
    rw [w1, w2, Nat.max_eq_right hb, Nat.min_eq_right he]
    simpa [RecordReader.new, RecordFileReader.Reset] using hsec
  have := readUntilEnd_complete n _ hfull (by rw [hp]; exact hn)
  rw [hp] at this
  exact this

theorem full_range_read_is_complete_witness :
    (mixedChannelFile.sections.all
        (sectionWithin mixedChannelFile.header.begin_time mixedChannelFile.header.end_time) =
        true ∧
      0 ≤ mixedChannelFile.header.begin_time ∧ mixedChannelFile.header.end_time ≤ 200 ∧
      (allMessages mixedChannelFile.sections).length < 5) ∧
    readUntilEnd 5 (RecordReader.new mixedChannelFile 0 200 ["camera"]) =
      passing ["camera"] (allMessages mixedChannelFile.sections) :=
  ⟨by decide,
   full_range_read_is_complete mixedChannelFile 0 200 ["camera"] 5 (by decide) (by decide)
     (by decide) (by decide)⟩

end Apollo.Cybertron.Record
